import Mathlib

/-!
Verification of the succinct LOUDS-trie lookup of
`src/include/cuco/detail/trie/trie_ref.inl`.

The source file contains three device functions:
  * `lookup_key`                 (level-by-level traversal + terminal check + rank)
  * `get_last_child_position`    (child-range resolution from the LOUDS bits)
  * `search_label_in_children`   (child-range resolution + binary search of labels)

They are embedded below over `List Bool` bit sequences and `List α` label
arrays.  The rank/select/find-next-set bit-vector primitive is external to the
excerpt (only its interface is consumed), so those four operations are
modelled from the spec, section 4.1.  All `uint32_t` arithmetic of the source
is kept exact via explicit reduction modulo 2^32 (`add32`, `sub32`, and the
midpoint computation); the `uint64_t` return value is reduced modulo 2^64.
Out-of-bounds array / bit-sequence accesses (undefined behaviour in the
source) are made explicit: every embedded function returns `none` when an
access falls outside the referenced storage, and `some r` when the source
would return the value `r`.
-/

namespace CucoTrie

def U32 : Nat := 4294967296

def U64 : Nat := 18446744073709551616

/-- NOT_FOUND sentinel: the uint64 value of `-1lu` returned by `lookup_key`. -/
def NOT_FOUND : Nat := U64 - 1

/-- uint32 addition: `(a + b)` reduced modulo 2^32. -/
def add32 (a b : Nat) : Nat := (a + b) % U32

/-- uint32 subtraction with wrap-around semantics. -/
def sub32 (a b : Nat) : Nat := (a + (U32 - b % U32)) % U32

/-! ## Bit-sequence primitive

Modelled from the spec: the `bit_vector` rank/select structure consumed by the
trie is not part of the excerpt; section 4.1 of the spec fixes its contract
(`get`, `rank`, `select`, `findNextSet`) over an abstract fixed-length bit
sequence, embedded here as a `List Bool`.  `select k` with fewer than `k+1`
set bits and `findNextSet pos` with no set bit at or after `pos` are
undefined per the spec, hence return `none`. -/

/-- Number of set bits of a bit sequence. -/
def popcount (bs : List Bool) : Nat := (bs.filter id).length

/-- Modelled from the spec: `rank(i)` = count of set bits in positions `[0, i)`. -/
def brank (bs : List Bool) (i : Nat) : Nat := popcount (bs.take i)

/-- Modelled from the spec: `get(i)` = bit at position `i`; out of range is an error. -/
def bget (bs : List Bool) (i : Nat) : Option Bool := bs[i]?

/-- Modelled from the spec: `select(k)` = position of the `(k+1)`-th set bit,
`none` when fewer than `k+1` set bits exist. -/
def bselect : List Bool → Nat → Option Nat
  | [], _ => none
  | b :: bs, k =>
    if b then
      match k with
      | 0 => some 0
      | k + 1 => (bselect bs k).map (· + 1)
    else (bselect bs k).map (· + 1)

/-- Position of the first set bit of a bit sequence, if any. -/
def findSetAux : List Bool → Option Nat
  | [] => none
  | true :: _ => some 0
  | false :: bs => (findSetAux bs).map (· + 1)

/-- Modelled from the spec: `findNextSet(pos)` = position of the first set bit
at or after `pos`, `none` (an out-of-range scan in the source) when there is
none. -/
def findNextSet (bs : List Bool) (pos : Nat) : Option Nat :=
  (findSetAux (bs.drop pos)).map (pos + ·)

/-! ## The trie view and the embedded source functions -/

/-- One level of the trie view: the per-depth symbol array and offset held in
`d_levels_ptr_[d]`, together with the level's LOUDS bit sequence
(`d_louds_refs_ptr_[d]`) and terminal-marker bit sequence
(`d_outs_refs_ptr_[d]`). -/
structure Level (α : Type) where
  labels : List α
  offset : Nat
  louds : List Bool
  outs : List Bool

/-- Embedding of `get_last_child_position` (trie_ref.inl lines 59-70).
Returns the pair (updated by-reference `node_id`, returned last-child
position), i.e. the `[begin, end)` child range of parent `node_id`. -/
def get_last_child_position (louds : List Bool) (node_id : Nat) :
    Option (Nat × Nat) :=
  match
    (if node_id ≠ 0 then
      match bselect louds (node_id - 1) with
      | none => none
      | some s =>
        let node_pos := add32 s 1
        some (node_pos, sub32 node_pos node_id)
    else some (0, node_id)) with
  | none => none
  | some (node_pos, node_id) =>
    match findNextSet louds node_pos with
    | none => none
    | some pos_end => some (node_id, add32 node_id (sub32 pos_end node_pos))

/-- The uint32 midpoint `(begin + end) / 2` computed by the binary search. -/
def mid32 (b e : Nat) : Nat := ((b + e) % U32) / 2

/-- Embedding of the binary-search `while` loop of `search_label_in_children`
(trie_ref.inl lines 95-105), with an explicit fuel argument; exhausting the
fuel while `b < e` still holds is an error outcome (the source loop would keep
running).  Arguments: fuel, `begin`, `end`, current `node_id`.  Returns the
final `node_id` and the value of `begin < end` at exit. -/
def bsearch_loop [LinearOrder α] (labels : List α) (target : α) :
    Nat → Nat → Nat → Nat → Option (Nat × Bool)
  | 0, b, e, nid => if b < e then none else some (nid, false)
  | fuel + 1, b, e, nid =>
    if b < e then
      match labels[mid32 b e]? with
      | none => none
      | some label =>
        if target < label then
          bsearch_loop labels target fuel b (mid32 b e) (mid32 b e)
        else if label < target then
          bsearch_loop labels target fuel (mid32 b e + 1) e (mid32 b e)
        else some (mid32 b e, true)
    else some (nid, false)

/-- Embedding of `search_label_in_children` (trie_ref.inl lines 81-107):
child-range resolution followed by the binary search of the level's label
array.  Returns the updated `node_id` and the boolean result. -/
def search_label_in_children [LinearOrder α] (louds : List Bool)
    (labels : List α) (target : α) (node_id : Nat) : Option (Nat × Bool) :=
  match get_last_child_position louds node_id with
  | none => none
  | some (first, last) => bsearch_loop labels target last first last first

/-- Embedding of the `for` loop of `lookup_key` (trie_ref.inl lines 34-36).
Arguments: remaining depth count, current depth, current `node_id`.
`some (some nid)` = loop completed with final node `nid`;
`some none` = a label search failed (the source returns `-1lu`);
`none` = out-of-bounds access. -/
def lookup_loop [LinearOrder α] (trie : List (Level α)) (key : Nat → α) :
    Nat → Nat → Nat → Option (Option Nat)
  | 0, _, node_id => some (some node_id)
  | steps + 1, cur_depth, node_id =>
    match trie[cur_depth]? with
    | none => none
    | some lv =>
      match search_label_in_children lv.louds lv.labels (key (cur_depth - 1))
          node_id with
      | none => none
      | some (_, false) => some none
      | some (nid, true) => lookup_loop trie key steps (cur_depth + 1) nid

/-- Embedding of `lookup_key` (trie_ref.inl lines 28-47): the traversal loop,
the terminal-bit check and the offset-plus-rank computation.  `some r` is the
uint64 value the source returns (`r` may be the `NOT_FOUND` sentinel);
`none` is an out-of-bounds access. -/
def lookup_key [LinearOrder α] (trie : List (Level α)) (key : Nat → α)
    (length : Nat) : Option Nat :=
  match lookup_loop trie key length 1 0 with
  | none => none
  | some none => some NOT_FOUND
  | some (some node_id) =>
    match trie[length]? with
    | none => none
    | some lv =>
      match bget lv.outs node_id with
      | none => none
      | some false => some NOT_FOUND
      | some true => some ((lv.offset + brank lv.outs node_id) % U64)

/-! ## Abstract model of a well-formed trie

Modelled from the spec, section 3: a trie view is well formed when each
level's label array splits into contiguous ascending blocks, one block per
parent-depth node, and the level's LOUDS bits are exactly the unary degree
sequence of those blocks (`0^(size) 1` per parent).  The abstract description
below records the blocks directly; `toView` derives the flat view the
embedded code consumes, and well-formedness of a view is being such a
derivation. -/

/-- Abstract description of one trie depth `d ≥ 1`: the child labels grouped
by parent node (in parent index order), and the terminal bit of every slot. -/
structure AbsLevel (α : Type) where
  blocks : List (List α)
  terms : List Bool

/-- Abstract description of a trie: the root's terminal bit and the levels
for depths `1 .. maxDepth`. -/
structure AbsTrie (α : Type) where
  rootTerm : Bool
  levels : List (AbsLevel α)

/-- Sum of the first `p` entries of a list of naturals. -/
def sumTake (ns : List Nat) (p : Nat) : Nat := (ns.take p).sum

/-- The LOUDS bit sequence of a list of block sizes: `0^n 1` per block. -/
def loudsOfSizes : List Nat → List Bool
  | [] => []
  | n :: rest => List.replicate n false ++ true :: loudsOfSizes rest

def blocksAt (t : AbsTrie α) (d : Nat) : List (List α) :=
  (t.levels.getD d ⟨[], []⟩).blocks

def sizesAt (t : AbsTrie α) (d : Nat) : List Nat :=
  (blocksAt t d).map List.length

/-- Number of slots at a depth: one root slot at depth 0, and the total block
size at deeper depths. -/
def numSlots (t : AbsTrie α) : Nat → Nat
  | 0 => 1
  | d + 1 => (sizesAt t d).sum

/-- Terminal bits of a depth. -/
def termsAt (t : AbsTrie α) : Nat → List Bool
  | 0 => [t.rootTerm]
  | d + 1 => (t.levels.getD d ⟨[], []⟩).terms

/-- Cumulative count of keys terminating at depths `< d` (the level offset). -/
def offsetAt (t : AbsTrie α) : Nat → Nat
  | 0 => 0
  | d + 1 => offsetAt t d + popcount (termsAt t d)

/-- Total number of keys stored in the trie. -/
def keyCount (t : AbsTrie α) : Nat := offsetAt t (t.levels.length + 1)

/-- The view level of a depth, as the external build phase lays it out. -/
def levelAt (t : AbsTrie α) : Nat → Level α
  | 0 => ⟨[], 0, [], [t.rootTerm]⟩
  | d + 1 =>
    ⟨(blocksAt t d).flatten, offsetAt t (d + 1), loudsOfSizes (sizesAt t d),
      termsAt t (d + 1)⟩

/-- The flat trie view (levels `0 .. maxDepth`) of an abstract trie. -/
def toView (t : AbsTrie α) : List (Level α) :=
  (List.range (t.levels.length + 1)).map (levelAt t)

/-- Index of the first occurrence of a symbol in a block. -/
def idxInBlock [DecidableEq α] : List α → α → Option Nat
  | [], _ => none
  | x :: xs, c => if x = c then some 0 else (idxInBlock xs c).map (· + 1)

/-- Global child-slot index of the child labelled `c` of parent `p`, at the
depth described by `blocks`. -/
def childIdx [DecidableEq α] (blocks : List (List α)) (p : Nat) (c : α) :
    Option Nat :=
  (idxInBlock (blocks.getD p []) c).map
    (sumTake (blocks.map List.length) p + ·)

/-- Abstract traversal: the slot reached from slot `p` at depth `d` by
following the given symbols, if every step has a matching child. -/
def findPathFrom [DecidableEq α] (t : AbsTrie α) : Nat → Nat → List α → Option Nat
  | _, p, [] => some p
  | d, p, c :: cs =>
    if d < t.levels.length then
      match childIdx (blocksAt t d) p c with
      | none => none
      | some q => findPathFrom t (d + 1) q cs
    else none

/-- Abstract traversal from the root. -/
def findPath [DecidableEq α] (t : AbsTrie α) (ks : List α) : Option Nat :=
  findPathFrom t 0 0 ks

/-- Whether a key belongs to the build set of the trie: its path exists and
its final slot is marked terminal. -/
def memKey [DecidableEq α] (t : AbsTrie α) (ks : List α) : Bool :=
  match findPath t ks with
  | none => false
  | some q => (termsAt t ks.length).getD q false

/-- The rank of a key of the build set: final level offset plus terminal rank
of its final slot. -/
def rankOfKey [DecidableEq α] (t : AbsTrie α) (ks : List α) : Nat :=
  match findPath t ks with
  | none => 0
  | some q => offsetAt t ks.length + brank (termsAt t ks.length) q

/-- `lookup_key` applied to the view of an abstract trie, with the key given
as a list. -/
def lookupList [LinearOrder α] (t : AbsTrie α) (dflt : α) (ks : List α) :
    Option Nat :=
  lookup_key (toView t) (fun i => ks.getD i dflt) ks.length

/-- Well-formedness of an abstract trie (the LOUDS and terminal-marker
invariants of the spec's data model, plus machine-representability bounds):
each depth has one block per parent slot, strictly ascending blocks, one
terminal bit per slot, fewer than 2^31 LOUDS bits per level, and a total key
count below the NOT_FOUND sentinel. -/
def WF (t : AbsTrie α) [LT α] : Prop :=
  (∀ d, d < t.levels.length →
      (blocksAt t d).length = numSlots t d ∧
      (termsAt t (d + 1)).length = numSlots t (d + 1) ∧
      (∀ b ∈ blocksAt t d, List.Pairwise (· < ·) b) ∧
      numSlots t (d + 1) + numSlots t d < 2 ^ 31) ∧
  keyCount t < NOT_FOUND

instance (t : AbsTrie α) [LT α] [DecidableRel (α := α) (· < ·)] :
    Decidable (WF t) := by
  unfold WF; infer_instance

/-! ## Arithmetic bridging lemmas -/

theorem add32_eq {a b : Nat} (h : a + b < U32) : add32 a b = a + b := by
  simp only [add32, U32] at *; omega

theorem sub32_eq {a b : Nat} (hba : b ≤ a) (ha : a < U32) : sub32 a b = a - b := by
  simp only [sub32, U32] at *; omega

/-! ## Bit-sequence lemmas -/

theorem popcount_append (xs ys : List Bool) :
    popcount (xs ++ ys) = popcount xs + popcount ys := by
  simp [popcount, List.filter_append]

theorem popcount_replicate_false (n : Nat) :
    popcount (List.replicate n false) = 0 := by
  induction n with
  | zero => rfl
  | succ n ih => simpa [popcount, List.replicate_succ] using ih

theorem brank_zero (bs : List Bool) : brank bs 0 = 0 := rfl

theorem brank_le_popcount (bs : List Bool) (i : Nat) :
    brank bs i ≤ popcount bs := by
  conv_rhs => rw [← List.take_append_drop i bs]
  rw [popcount_append]
  exact Nat.le_add_right _ _

theorem brank_lt_popcount {bs : List Bool} {i : Nat}
    (h : bs[i]? = some true) : brank bs i < popcount bs := by
  have hi : i < bs.length := by
    by_contra hc
    simp [List.getElem?_eq_none (Nat.le_of_not_lt hc)] at h
  have hdrop : bs.drop i = true :: bs.drop (i + 1) := by
    have := List.getElem_cons_drop bs i hi
    have hv : bs[i] = true := by
      have := List.getElem?_eq_getElem hi
      rw [this] at h
      exact Option.some_injective _ h
    rw [← this, hv]
  have : popcount bs = brank bs i + popcount (bs.drop i) := by
    conv_lhs => rw [← List.take_append_drop i bs]
    exact popcount_append _ _
  rw [this, hdrop]
  have : 0 < popcount (true :: bs.drop (i + 1)) := by
    simp [popcount, List.filter]
  omega

theorem bselect_nil (k : Nat) : bselect [] k = none := rfl

theorem bselect_cons_false (bs : List Bool) (k : Nat) :
    bselect (false :: bs) k = (bselect bs k).map (· + 1) := rfl

theorem bselect_cons_true_zero (bs : List Bool) :
    bselect (true :: bs) 0 = some 0 := rfl

theorem bselect_cons_true_succ (bs : List Bool) (k : Nat) :
    bselect (true :: bs) (k + 1) = (bselect bs k).map (· + 1) := rfl

theorem findSetAux_cons_true (bs : List Bool) :
    findSetAux (true :: bs) = some 0 := rfl

theorem findSetAux_cons_false (bs : List Bool) :
    findSetAux (false :: bs) = (findSetAux bs).map (· + 1) := rfl

theorem bselect_bounds {bs : List Bool} {k s : Nat}
    (h : bselect bs k = some s) : k ≤ s ∧ s < bs.length := by
  induction bs generalizing k s with
  | nil => simp [bselect_nil] at h
  | cons b bs ih =>
    cases b with
    | false =>
      rw [bselect_cons_false] at h
      cases hs : bselect bs k with
      | none => rw [hs] at h; simp at h
      | some v =>
        rw [hs] at h
        simp only [Option.map_some', Option.some.injEq] at h
        subst h
        have := ih hs
        simp only [List.length_cons]
        omega
    | true =>
      cases k with
      | zero =>
        rw [bselect_cons_true_zero] at h
        simp only [Option.some.injEq] at h
        subst h
        simp only [List.length_cons]
        omega
      | succ k =>
        rw [bselect_cons_true_succ] at h
        cases hs : bselect bs k with
        | none => rw [hs] at h; simp at h
        | some v =>
          rw [hs] at h
          simp only [Option.map_some', Option.some.injEq] at h
          subst h
          have := ih hs
          simp only [List.length_cons]
          omega

theorem findSetAux_bounds {bs : List Bool} {x : Nat}
    (h : findSetAux bs = some x) : x < bs.length := by
  induction bs generalizing x with
  | nil => simp [findSetAux] at h
  | cons b bs ih =>
    cases b with
    | true =>
      rw [findSetAux_cons_true] at h
      simp only [Option.some.injEq] at h
      subst h
      simp only [List.length_cons]
      omega
    | false =>
      rw [findSetAux_cons_false] at h
      cases hs : findSetAux bs with
      | none => rw [hs] at h; simp at h
      | some v =>
        rw [hs] at h
        simp only [Option.map_some', Option.some.injEq] at h
        subst h
        have := ih hs
        simp only [List.length_cons]
        omega

theorem findNextSet_bounds {bs : List Bool} {pos f : Nat}
    (h : findNextSet bs pos = some f) : pos ≤ f ∧ f < bs.length := by
  simp only [findNextSet, Option.map_eq_some'] at h
  obtain ⟨x, hx, rfl⟩ := h
  have hb := findSetAux_bounds hx
  rw [List.length_drop] at hb
  omega

/-! ## LOUDS structure lemmas -/

theorem loudsOfSizes_length (ns : List Nat) :
    (loudsOfSizes ns).length = ns.sum + ns.length := by
  induction ns with
  | nil => rfl
  | cons n rest ih =>
    simp only [loudsOfSizes, List.length_append, List.length_replicate,
      List.length_cons, ih, List.sum_cons]
    omega

theorem sumTake_zero (ns : List Nat) : sumTake ns 0 = 0 := rfl

theorem sumTake_cons_succ (n : Nat) (rest : List Nat) (p : Nat) :
    sumTake (n :: rest) (p + 1) = n + sumTake rest p := by
  simp [sumTake, List.take_succ_cons]

theorem sumTake_le_sum (ns : List Nat) (p : Nat) : sumTake ns p ≤ ns.sum := by
  induction ns generalizing p with
  | nil => simp [sumTake]
  | cons n rest ih =>
    cases p with
    | zero => simp [sumTake]
    | succ p =>
      rw [sumTake_cons_succ, List.sum_cons]
      exact Nat.add_le_add_left (ih p) n

theorem sumTake_mono (ns : List Nat) {p q : Nat} (h : p ≤ q) :
    sumTake ns p ≤ sumTake ns q := by
  induction ns generalizing p q with
  | nil => simp [sumTake]
  | cons n rest ih =>
    cases p with
    | zero => simp [sumTake_zero]
    | succ p =>
      cases q with
      | zero => omega
      | succ q =>
        rw [sumTake_cons_succ, sumTake_cons_succ]
        exact Nat.add_le_add_left (ih (Nat.le_of_succ_le_succ h)) n

theorem sumTake_succ_getD (ns : List Nat) (p : Nat) (hp : p < ns.length) :
    sumTake ns (p + 1) = sumTake ns p + ns.getD p 0 := by
  induction ns generalizing p with
  | nil => simp at hp
  | cons n rest ih =>
    cases p with
    | zero => simp [sumTake, List.take_succ_cons]
    | succ p =>
      rw [sumTake_cons_succ, sumTake_cons_succ,
        ih p (by simp only [List.length_cons] at hp; omega)]
      simp only [List.getD_cons_succ]
      omega

theorem sumTake_length (ns : List Nat) : sumTake ns ns.length = ns.sum := by
  simp [sumTake]

theorem bselect_replicate_false (n : Nat) (bs : List Bool) (k : Nat) :
    bselect (List.replicate n false ++ bs) k = (bselect bs k).map (· + n) := by
  induction n with
  | zero =>
    simp only [List.replicate_zero, List.nil_append]
    cases bselect bs k with
    | none => simp
    | some v => simp
  | succ n ih =>
    rw [List.replicate_succ, List.cons_append, bselect_cons_false, ih]
    cases bselect bs k with
    | none => simp
    | some v =>
      simp only [Option.map_some', Option.some.injEq]
      omega

theorem bselect_louds (ns : List Nat) (p : Nat) (hp : p < ns.length) :
    bselect (loudsOfSizes ns) p = some (sumTake ns (p + 1) + p) := by
  induction ns generalizing p with
  | nil => simp at hp
  | cons n rest ih =>
    rw [loudsOfSizes, bselect_replicate_false]
    cases p with
    | zero =>
      rw [bselect_cons_true_zero, sumTake_cons_succ, sumTake_zero]
      simp
    | succ p =>
      have hp2 : p < rest.length := by
        simp only [List.length_cons] at hp
        omega
      rw [bselect_cons_true_succ, ih p hp2, sumTake_cons_succ]
      simp only [Option.map_some', Option.some.injEq]
      omega

theorem findSetAux_replicate (n : Nat) (rest : List Bool) :
    findSetAux (List.replicate n false ++ true :: rest) = some n := by
  induction n with
  | zero => simp [findSetAux]
  | succ n ih =>
    rw [List.replicate_succ, List.cons_append, findSetAux_cons_false, ih]
    simp

theorem drop_append_shift (xs ys : List α) (t : Nat) :
    (xs ++ ys).drop (xs.length + t) = ys.drop t := by
  induction xs with
  | nil => simp
  | cons x xs ih =>
    simp only [List.cons_append, List.length_cons]
    rw [show xs.length + 1 + t = (xs.length + t) + 1 by omega]
    simpa using ih

theorem findNextSet_shift (xs ys : List Bool) (t : Nat) :
    findNextSet (xs ++ ys) (xs.length + t) =
      (findNextSet ys t).map (xs.length + ·) := by
  simp only [findNextSet, drop_append_shift]
  cases findSetAux (ys.drop t) with
  | none => simp
  | some v =>
    simp only [Option.map_some', Option.some.injEq]
    omega

theorem findNextSet_louds (ns : List Nat) (p : Nat) (hp : p < ns.length) :
    findNextSet (loudsOfSizes ns) (sumTake ns p + p) =
      some (sumTake ns (p + 1) + p) := by
  induction ns generalizing p with
  | nil => simp at hp
  | cons n rest ih =>
    cases p with
    | zero =>
      rw [sumTake_zero, loudsOfSizes]
      simp only [findNextSet, Nat.add_zero, List.drop_zero]
      rw [findSetAux_replicate]
      simp only [Option.map_some', Option.some.injEq]
      rw [sumTake_cons_succ, sumTake_zero]
      omega
    | succ p =>
      have hp2 : p < rest.length := by
        simp only [List.length_cons] at hp
        omega
      have hsplit : loudsOfSizes (n :: rest) =
          (List.replicate n false ++ [true]) ++ loudsOfSizes rest := by
        simp [loudsOfSizes]
      have hlen : (List.replicate n false ++ [true]).length = n + 1 := by simp
      rw [hsplit, sumTake_cons_succ,
        show n + sumTake rest p + (p + 1) =
          (List.replicate n false ++ [true]).length + (sumTake rest p + p) by
            rw [hlen]; omega]
      rw [findNextSet_shift, ih p hp2]
      simp only [Option.map_some', Option.some.injEq, hlen]
      rw [sumTake_cons_succ]
      omega

theorem glcp_zero_branch (louds : List Bool) :
    get_last_child_position louds 0 =
      match findNextSet louds 0 with
      | none => none
      | some pos_end => some (0, add32 0 (sub32 pos_end 0)) := rfl

theorem glcp_succ_branch (louds : List Bool) (p : Nat) :
    get_last_child_position louds (p + 1) =
      match bselect louds p with
      | none => none
      | some s =>
        match findNextSet louds (add32 s 1) with
        | none => none
        | some pos_end =>
          some (sub32 (add32 s 1) (p + 1),
            add32 (sub32 (add32 s 1) (p + 1)) (sub32 pos_end (add32 s 1))) := by
  simp only [get_last_child_position, ne_eq, Nat.succ_ne_zero,
    not_false_eq_true, if_true, Nat.add_sub_cancel]
  cases bselect louds p with
  | none => rfl
  | some s => rfl

/-- Child-range resolution on a well-formed LOUDS sequence: parent `p` gets
exactly the slot range from the `p`-th prefix sum of the block sizes to the
`(p+1)`-th. -/
theorem glcp_louds (ns : List Nat) (p : Nat) (hp : p < ns.length)
    (hlen : ns.sum + ns.length < U32) :
    get_last_child_position (loudsOfSizes ns) p =
      some (sumTake ns p, sumTake ns (p + 1)) := by
  have hLlen := loudsOfSizes_length ns
  have hst : ∀ q, sumTake ns q ≤ ns.sum := fun q => sumTake_le_sum ns q
  cases p with
  | zero =>
    rw [glcp_zero_branch]
    have h0 := findNextSet_louds ns 0 hp
    rw [sumTake_zero] at h0
    simp only [Nat.add_zero] at h0
    rw [h0]
    dsimp only
    rw [sub32_eq (Nat.zero_le _) (by have := hst (0 + 1); omega)]
    rw [add32_eq (by have := hst (0 + 1); omega)]
    rw [sumTake_zero]
    simp
  | succ p =>
    rw [glcp_succ_branch]
    have hsel := bselect_louds ns p (Nat.lt_of_succ_lt hp)
    rw [hsel]
    dsimp only
    have ha1 : add32 (sumTake ns (p + 1) + p) 1 = sumTake ns (p + 1) + (p + 1) := by
      rw [add32_eq (by have := hst (p + 1); omega)]
      omega
    rw [ha1]
    have hfind := findNextSet_louds ns (p + 1) hp
    rw [hfind]
    dsimp only
    have hs1 : sub32 (sumTake ns (p + 1) + (p + 1)) (p + 1) = sumTake ns (p + 1) := by
      rw [sub32_eq (by omega) (by have := hst (p + 1); omega)]
      omega
    rw [hs1]
    have hmono : sumTake ns (p + 1) ≤ sumTake ns (p + 1 + 1) :=
      sumTake_mono ns (by omega)
    have hs2 : sub32 (sumTake ns (p + 1 + 1) + (p + 1)) (sumTake ns (p + 1) + (p + 1)) =
        sumTake ns (p + 1 + 1) - sumTake ns (p + 1) := by
      rw [sub32_eq (by omega) (by have := hst (p + 1 + 1); omega)]
      omega
    rw [hs2]
    have ha2 : add32 (sumTake ns (p + 1)) (sumTake ns (p + 1 + 1) - sumTake ns (p + 1)) =
        sumTake ns (p + 1 + 1) := by
      rw [add32_eq (by have := hst (p + 1 + 1); omega)]
      omega
    rw [ha2]

/-! ## Binary search correctness -/

/-- The slice `[lo, hi)` of a label array is strictly ascending. -/
def SortedSlice [LinearOrder α] (labels : List α) (lo hi : Nat) : Prop :=
  ∀ i j x y, lo ≤ i → i < j → j < hi →
    labels[i]? = some x → labels[j]? = some y → x < y

/-- The binary-search loop on a strictly ascending slice either returns the
index of the target with flag `true`, or flag `false` when the target is
absent from the slice; it never errs when the fuel covers the slice width. -/
theorem bsearch_loop_spec [LinearOrder α] (labels : List α) (target : α) :
    ∀ (fuel b e nid : Nat), e ≤ labels.length → 2 * e ≤ U32 → e - b ≤ fuel →
      SortedSlice labels b e →
      (∃ i, b ≤ i ∧ i < e ∧ labels[i]? = some target ∧
          bsearch_loop labels target fuel b e nid = some (i, true)) ∨
      ((∀ i x, b ≤ i → i < e → labels[i]? = some x → x ≠ target) ∧
        ∃ j, bsearch_loop labels target fuel b e nid = some (j, false)) := by
  intro fuel
  induction fuel with
  | zero =>
    intro b e nid hlen hU hfuel hsort
    right
    refine ⟨fun i x hbi hie _ => by exfalso; omega, nid, ?_⟩
    simp only [bsearch_loop]
    rw [if_neg (by omega)]
  | succ fuel ih =>
    intro b e nid hlen hU hfuel hsort
    by_cases hbe : b < e
    · have hU32 : U32 = 4294967296 := rfl
      have hmid : mid32 b e = (b + e) / 2 := by
        unfold mid32
        rw [Nat.mod_eq_of_lt (by omega)]
      have hmb : b ≤ mid32 b e := by rw [hmid]; omega
      have hme : mid32 b e < e := by rw [hmid]; omega
      have hmlen : mid32 b e < labels.length := lt_of_lt_of_le hme hlen
      have hlab : labels[mid32 b e]? = some labels[mid32 b e] :=
        List.getElem?_eq_getElem hmlen
      have hunfold : bsearch_loop labels target (fuel + 1) b e nid =
          (if target < labels[mid32 b e] then
            bsearch_loop labels target fuel b (mid32 b e) (mid32 b e)
          else if labels[mid32 b e] < target then
            bsearch_loop labels target fuel (mid32 b e + 1) e (mid32 b e)
          else some (mid32 b e, true)) := by
        simp only [bsearch_loop]
        rw [if_pos hbe, hlab]
      rcases lt_trichotomy target labels[mid32 b e] with hcmp | hcmp | hcmp
      · rw [hunfold, if_pos hcmp]
        have hsort2 : SortedSlice labels b (mid32 b e) :=
          fun i j x y h1 h2 h3 hx hy => hsort i j x y h1 h2 (by omega) hx hy
        rcases ih b (mid32 b e) (mid32 b e) (by omega) (by omega) (by omega)
            hsort2 with ⟨i, h1, h2, h3, h4⟩ | ⟨hnone, j, hj⟩
        · exact Or.inl ⟨i, h1, by omega, h3, h4⟩
        · refine Or.inr ⟨?_, j, hj⟩
          intro i x hbi hie hx
          by_cases him : i < mid32 b e
          · exact hnone i x hbi him hx
          · rcases Nat.eq_or_lt_of_le (Nat.le_of_not_lt him) with heq | hlt2
            · have hxval : x = labels[mid32 b e] := by
                rw [← heq] at hx
                exact Option.some_injective _ (hx.symm.trans hlab)
              rw [hxval]
              exact ne_of_gt hcmp
            · have hgt := hsort (mid32 b e) i labels[mid32 b e] x hmb hlt2
                hie hlab hx
              exact ne_of_gt (lt_trans hcmp hgt)
      · refine Or.inl ⟨mid32 b e, hmb, hme, by rw [hlab, hcmp], ?_⟩
        rw [hunfold, if_neg (by rw [← hcmp]; exact lt_irrefl _),
          if_neg (by rw [← hcmp]; exact lt_irrefl _)]
      · rw [hunfold, if_neg (by exact fun h => absurd hcmp (not_lt_of_gt h)),
          if_pos hcmp]
        have hsort2 : SortedSlice labels (mid32 b e + 1) e :=
          fun i j x y h1 h2 h3 hx hy => hsort i j x y (by omega) h2 h3 hx hy
        rcases ih (mid32 b e + 1) e (mid32 b e) hlen hU (by omega)
            hsort2 with ⟨i, h1, h2, h3, h4⟩ | ⟨hnone, j, hj⟩
        · exact Or.inl ⟨i, by omega, h2, h3, h4⟩
        · refine Or.inr ⟨?_, j, hj⟩
          intro i x hbi hie hx
          by_cases him : mid32 b e + 1 ≤ i
          · exact hnone i x him hie hx
          · have hile : i ≤ mid32 b e := by omega
            rcases Nat.eq_or_lt_of_le hile with heq | hlt2
            · have hxval : x = labels[mid32 b e] := by
                rw [heq] at hx
                exact Option.some_injective _ (hx.symm.trans hlab)
              rw [hxval]
              exact ne_of_lt hcmp
            · have hlt3 := hsort i (mid32 b e) x labels[mid32 b e] hbi hlt2
                hme hx hlab
              exact ne_of_lt (lt_trans hlt3 hcmp)
    · right
      refine ⟨fun i x hbi hie _ => by exfalso; omega, nid, ?_⟩
      simp only [bsearch_loop]
      rw [if_neg hbe]

/-! ## Indexing the flattened label array by parent block -/

theorem sizes_getD (blocks : List (List α)) (p : Nat) (hp : p < blocks.length) :
    (blocks.map List.length).getD p 0 = (blocks.getD p []).length := by
  induction blocks generalizing p with
  | nil => simp at hp
  | cons blk rest ih =>
    cases p with
    | zero => simp
    | succ p =>
      simp only [List.map_cons, List.getD_cons_succ]
      exact ih p (by simp only [List.length_cons] at hp; omega)

theorem flatten_getElem? (blocks : List (List α)) (p i : Nat)
    (hp : p < blocks.length) (hi : i < (blocks.getD p []).length) :
    blocks.flatten[sumTake (blocks.map List.length) p + i]? =
      (blocks.getD p [])[i]? := by
  induction blocks generalizing p with
  | nil => simp at hp
  | cons blk rest ih =>
    cases p with
    | zero =>
      simp only [List.getD_cons_zero] at hi
      simp only [List.flatten_cons, sumTake_zero, Nat.zero_add,
        List.getD_cons_zero]
      rw [List.getElem?_append, if_pos hi]
    | succ p =>
      simp only [List.getD_cons_succ] at hi
      simp only [List.flatten_cons, List.map_cons, sumTake_cons_succ,
        List.getD_cons_succ]
      rw [show blk.length + sumTake (rest.map List.length) p + i =
        blk.length + (sumTake (rest.map List.length) p + i) by omega]
      rw [List.getElem?_append, if_neg (by omega)]
      rw [show blk.length + (sumTake (rest.map List.length) p + i) - blk.length =
        sumTake (rest.map List.length) p + i by omega]
      exact ih p (by simp only [List.length_cons] at hp; omega) hi

theorem pairwise_getElem? {l : List α} {r : α → α → Prop}
    (h : List.Pairwise r l) {i j : Nat} {x y : α} (hij : i < j)
    (hx : l[i]? = some x) (hy : l[j]? = some y) : r x y := by
  have hjl : j < l.length := by
    by_contra hc
    rw [List.getElem?_eq_none (Nat.le_of_not_lt hc)] at hy
    exact Option.noConfusion hy
  have hil : i < l.length := lt_trans hij hjl
  rw [List.getElem?_eq_getElem hil] at hx
  rw [List.getElem?_eq_getElem hjl] at hy
  have := (List.pairwise_iff_get.mp h) ⟨i, hil⟩ ⟨j, hjl⟩ hij
  simp only [List.get_eq_getElem] at this
  rw [Option.some_injective _ hx] at this
  rw [Option.some_injective _ hy] at this
  exact this

/-- The label slice of one parent block is strictly ascending. -/
theorem sortedSlice_block (blocks : List (List α)) [LinearOrder α] (p : Nat)
    (hp : p < blocks.length)
    (hsorted : List.Pairwise (· < ·) (blocks.getD p [])) :
    SortedSlice blocks.flatten (sumTake (blocks.map List.length) p)
      (sumTake (blocks.map List.length) (p + 1)) := by
  intro i j x y hlo hij hhi hx hy
  have hpl : p < (blocks.map List.length).length := by simpa using hp
  have hsucc := sumTake_succ_getD (blocks.map List.length) p hpl
  rw [sizes_getD blocks p hp] at hsucc
  set B := sumTake (blocks.map List.length) p with hB
  have hjB : j - B < (blocks.getD p []).length := by omega
  have hiB : i - B < (blocks.getD p []).length := by omega
  have hxi : blocks.flatten[B + (i - B)]? = (blocks.getD p [])[i - B]? :=
    flatten_getElem? blocks p (i - B) hp hiB
  have hyj : blocks.flatten[B + (j - B)]? = (blocks.getD p [])[j - B]? :=
    flatten_getElem? blocks p (j - B) hp hjB
  rw [show B + (i - B) = i by omega] at hxi
  rw [show B + (j - B) = j by omega] at hyj
  rw [hx] at hxi
  rw [hy] at hyj
  exact pairwise_getElem? hsorted (by omega) hxi.symm hyj.symm

/-! ## idxInBlock and childIdx lemmas -/

theorem idxInBlock_getElem? [DecidableEq α] {l : List α} {c : α} {i : Nat}
    (h : idxInBlock l c = some i) : l[i]? = some c := by
  induction l generalizing i with
  | nil => simp [idxInBlock] at h
  | cons x xs ih =>
    by_cases hx : x = c
    · rw [idxInBlock, if_pos hx] at h
      simp only [Option.some.injEq] at h
      subst h
      simp [hx]
    · rw [idxInBlock, if_neg hx] at h
      cases hs : idxInBlock xs c with
      | none => rw [hs] at h; simp at h
      | some v =>
        rw [hs] at h
        simp only [Option.map_some', Option.some.injEq] at h
        subst h
        simpa using ih hs

theorem idxInBlock_isSome [DecidableEq α] {l : List α} {c : α} {k : Nat}
    (h : l[k]? = some c) : (idxInBlock l c).isSome := by
  induction l generalizing k with
  | nil => simp at h
  | cons x xs ih =>
    by_cases hx : x = c
    · rw [idxInBlock, if_pos hx]; rfl
    · rw [idxInBlock, if_neg hx]
      cases k with
      | zero => simp at h; exact absurd h hx
      | succ k =>
        simp only [List.getElem?_cons_succ] at h
        have := ih h
        cases hs : idxInBlock xs c with
        | none => rw [hs] at this; simp at this
        | some v => rfl

theorem idxInBlock_of_getElem? [LinearOrder α] {l : List α} {c : α} {k : Nat}
    (hsorted : List.Pairwise (· < ·) l) (h : l[k]? = some c) :
    idxInBlock l c = some k := by
  induction l generalizing k with
  | nil => simp at h
  | cons x xs ih =>
    cases k with
    | zero =>
      simp only [List.getElem?_cons_zero, Option.some.injEq] at h
      rw [idxInBlock, if_pos h]
    | succ k =>
      simp only [List.getElem?_cons_succ] at h
      have hcmem : c ∈ xs := by
        have hk : k < xs.length := by
          by_contra hc
          rw [List.getElem?_eq_none (Nat.le_of_not_lt hc)] at h
          exact Option.noConfusion h
        rw [List.getElem?_eq_getElem hk] at h
        rw [← Option.some_injective _ h]
        exact List.getElem_mem hk
      have hxc : x < c := (List.pairwise_cons.mp hsorted).1 c hcmem
      rw [idxInBlock, if_neg (ne_of_lt hxc)]
      rw [ih (List.pairwise_cons.mp hsorted).2 h]
      rfl

theorem childIdx_some_getElem? [LinearOrder α] {blocks : List (List α)}
    {p : Nat} {c : α} {q : Nat} (h : childIdx blocks p c = some q) :
    sumTake (blocks.map List.length) p ≤ q ∧
      q - sumTake (blocks.map List.length) p < (blocks.getD p []).length ∧
      (blocks.getD p [])[q - sumTake (blocks.map List.length) p]? = some c := by
  simp only [childIdx, Option.map_eq_some'] at h
  obtain ⟨k, hk, rfl⟩ := h
  have hg := idxInBlock_getElem? hk
  have hklen : k < (blocks.getD p []).length := by
    by_contra hc
    rw [List.getElem?_eq_none (Nat.le_of_not_lt hc)] at hg
    exact Option.noConfusion hg
  refine ⟨by omega, ?_, ?_⟩
  · rw [show sumTake (blocks.map List.length) p + k -
      sumTake (blocks.map List.length) p = k by omega]
    exact hklen
  · rw [show sumTake (blocks.map List.length) p + k -
      sumTake (blocks.map List.length) p = k by omega]
    exact hg

/-! ## search_label_in_children on a well-formed level -/

theorem getD_mem_of_lt (blocks : List (List α)) (p : Nat)
    (hp : p < blocks.length) : blocks.getD p [] ∈ blocks := by
  rw [List.getD_eq_getElem blocks [] hp]
  exact List.getElem_mem hp

/-- On a well-formed level, when parent `p` has a child labelled `target` at
global slot `q`, the search returns `(q, true)`. -/
theorem search_children_found [LinearOrder α] (blocks : List (List α))
    (p q : Nat) (target : α) (hp : p < blocks.length)
    (hsorted : ∀ b ∈ blocks, List.Pairwise (· < ·) b)
    (hsize : (blocks.map List.length).sum + blocks.length < 2 ^ 31)
    (hq : childIdx blocks p target = some q) :
    search_label_in_children (loudsOfSizes (blocks.map List.length))
      blocks.flatten target p = some (q, true) := by
  have hU32 : U32 = 4294967296 := rfl
  have h31 : (2 : Nat) ^ 31 = 2147483648 := by norm_num
  have hpn : p < (blocks.map List.length).length := by simpa using hp
  have hnlen : (blocks.map List.length).length = blocks.length := by simp
  have hflen : blocks.flatten.length = (blocks.map List.length).sum :=
    List.length_flatten blocks
  have hg := glcp_louds (blocks.map List.length) p hpn (by omega)
  have hpair := hsorted (blocks.getD p []) (getD_mem_of_lt blocks p hp)
  have hE := sumTake_succ_getD (blocks.map List.length) p hpn
  rw [sizes_getD blocks p hp] at hE
  have hEsum := sumTake_le_sum (blocks.map List.length) (p + 1)
  have hBsum := sumTake_le_sum (blocks.map List.length) p
  rcases bsearch_loop_spec blocks.flatten target
      (sumTake (blocks.map List.length) (p + 1))
      (sumTake (blocks.map List.length) p)
      (sumTake (blocks.map List.length) (p + 1))
      (sumTake (blocks.map List.length) p)
      (by omega) (by omega) (by omega)
      (sortedSlice_block blocks p hp hpair) with
    ⟨i, hBi, hiE, hit, heq⟩ | ⟨hnone, j, hj⟩
  · have hiB : i - sumTake (blocks.map List.length) p <
        (blocks.getD p []).length := by omega
    have hfi := flatten_getElem? blocks p
      (i - sumTake (blocks.map List.length) p) hp hiB
    rw [show sumTake (blocks.map List.length) p +
      (i - sumTake (blocks.map List.length) p) = i by omega, hit] at hfi
    have hidx := idxInBlock_of_getElem? hpair hfi.symm
    have hci : childIdx blocks p target = some i := by
      rw [childIdx, hidx]
      simp only [Option.map_some', Option.some.injEq]
      omega
    rw [hci] at hq
    obtain rfl := Option.some_injective _ hq
    simp only [search_label_in_children, hg]
    exact heq
  · exfalso
    obtain ⟨hBq, hkl, hget⟩ := childIdx_some_getElem? hq
    have hfk := flatten_getElem? blocks p
      (q - sumTake (blocks.map List.length) p) hp hkl
    rw [hget] at hfk
    exact hnone (sumTake (blocks.map List.length) p +
        (q - sumTake (blocks.map List.length) p)) target
      (by omega) (by omega) hfk rfl

/-- On a well-formed level, when parent `p` has no child labelled `target`,
the search returns `false`. -/
theorem search_children_notfound [LinearOrder α] (blocks : List (List α))
    (p : Nat) (target : α) (hp : p < blocks.length)
    (hsorted : ∀ b ∈ blocks, List.Pairwise (· < ·) b)
    (hsize : (blocks.map List.length).sum + blocks.length < 2 ^ 31)
    (hq : childIdx blocks p target = none) :
    ∃ j, search_label_in_children (loudsOfSizes (blocks.map List.length))
      blocks.flatten target p = some (j, false) := by
  have hU32 : U32 = 4294967296 := rfl
  have h31 : (2 : Nat) ^ 31 = 2147483648 := by norm_num
  have hpn : p < (blocks.map List.length).length := by simpa using hp
  have hnlen : (blocks.map List.length).length = blocks.length := by simp
  have hflen : blocks.flatten.length = (blocks.map List.length).sum :=
    List.length_flatten blocks
  have hg := glcp_louds (blocks.map List.length) p hpn (by omega)
  have hpair := hsorted (blocks.getD p []) (getD_mem_of_lt blocks p hp)
  have hE := sumTake_succ_getD (blocks.map List.length) p hpn
  rw [sizes_getD blocks p hp] at hE
  have hEsum := sumTake_le_sum (blocks.map List.length) (p + 1)
  have hBsum := sumTake_le_sum (blocks.map List.length) p
  rcases bsearch_loop_spec blocks.flatten target
      (sumTake (blocks.map List.length) (p + 1))
      (sumTake (blocks.map List.length) p)
      (sumTake (blocks.map List.length) (p + 1))
      (sumTake (blocks.map List.length) p)
      (by omega) (by omega) (by omega)
      (sortedSlice_block blocks p hp hpair) with
    ⟨i, hBi, hiE, hit, heq⟩ | ⟨hnone, j, hj⟩
  · exfalso
    have hiB : i - sumTake (blocks.map List.length) p <
        (blocks.getD p []).length := by omega
    have hfi := flatten_getElem? blocks p
      (i - sumTake (blocks.map List.length) p) hp hiB
    rw [show sumTake (blocks.map List.length) p +
      (i - sumTake (blocks.map List.length) p) = i by omega, hit] at hfi
    have := idxInBlock_isSome hfi.symm
    rw [childIdx] at hq
    cases hs : idxInBlock (blocks.getD p []) target with
    | none => rw [hs] at this; simp at this
    | some v => rw [hs] at hq; simp at hq
  · refine ⟨j, ?_⟩
    simp only [search_label_in_children, hg]
    exact hj

/-! ## View access and abstract-path lemmas -/

theorem toView_getElem?_le (t : AbsTrie α) (d : Nat)
    (hd : d ≤ t.levels.length) : (toView t)[d]? = some (levelAt t d) := by
  unfold toView
  rw [List.getElem?_map, List.getElem?_range (by omega)]
  rfl

theorem toView_getElem?_gt (t : AbsTrie α) (d : Nat)
    (hd : t.levels.length < d) : (toView t)[d]? = none := by
  apply List.getElem?_eq_none
  simp only [toView, List.length_map, List.length_range]
  omega

theorem levelAt_succ (t : AbsTrie α) (d : Nat) :
    levelAt t (d + 1) =
      ⟨(blocksAt t d).flatten, offsetAt t (d + 1),
        loudsOfSizes ((blocksAt t d).map List.length), termsAt t (d + 1)⟩ := rfl

theorem numSlots_succ_eq (t : AbsTrie α) (d : Nat) :
    numSlots t (d + 1) = ((blocksAt t d).map List.length).sum := rfl

theorem childIdx_lt_sum [LinearOrder α] {blocks : List (List α)} {p : Nat}
    {c : α} {q : Nat} (h : childIdx blocks p c = some q) :
    q < (blocks.map List.length).sum := by
  have hp : p < blocks.length := by
    by_contra hc
    rw [childIdx, List.getD_eq_default _ _ (Nat.le_of_not_lt hc)] at h
    simp [idxInBlock] at h
  obtain ⟨hB, hk, hget⟩ := childIdx_some_getElem? h
  have hE := sumTake_succ_getD (blocks.map List.length) p (by simpa using hp)
  rw [sizes_getD blocks p hp] at hE
  have := sumTake_le_sum (blocks.map List.length) (p + 1)
  omega

theorem findPathFrom_nil [LinearOrder α] (t : AbsTrie α) (d p : Nat) :
    findPathFrom t d p [] = some p := rfl

theorem findPathFrom_cons [LinearOrder α] (t : AbsTrie α) (d p : Nat)
    (c : α) (cs : List α) :
    findPathFrom t d p (c :: cs) =
      if d < t.levels.length then
        match childIdx (blocksAt t d) p c with
        | none => none
        | some q => findPathFrom t (d + 1) q cs
      else none := rfl

/-- A successful abstract step lands on a slot index below the slot count of
the next depth. -/
theorem findPathFrom_lt [LinearOrder α] (t : AbsTrie α) :
    ∀ (ks : List α) (d p q : Nat),
      findPathFrom t d p ks = some q → p < numSlots t d →
      q < numSlots t (d + ks.length) := by
  intro ks
  induction ks with
  | nil =>
    intro d p q h hp
    rw [findPathFrom_nil] at h
    obtain rfl := Option.some_injective _ h.symm
    simpa using hp
  | cons c cs ih =>
    intro d p q h hp
    rw [findPathFrom_cons] at h
    by_cases hd : d < t.levels.length
    · rw [if_pos hd] at h
      cases hc : childIdx (blocksAt t d) p c with
      | none => rw [hc] at h; exact absurd h (by simp)
      | some q2 =>
        rw [hc] at h
        have hq2 : q2 < numSlots t (d + 1) := by
          rw [numSlots_succ_eq]
          exact childIdx_lt_sum hc
        have := ih (d + 1) q2 q h hq2
        rw [show d + (c :: cs).length = d + 1 + cs.length by
          simp only [List.length_cons]; omega]
        exact this
    · rw [if_neg hd] at h
      exact absurd h (by simp)

/-- A successful abstract traversal never walks past the deepest level. -/
theorem findPathFrom_le_length [LinearOrder α] (t : AbsTrie α) :
    ∀ (ks : List α) (d p q : Nat),
      findPathFrom t d p ks = some q → d ≤ t.levels.length →
      d + ks.length ≤ t.levels.length := by
  intro ks
  induction ks with
  | nil =>
    intro d p q _ hd
    simpa using hd
  | cons c cs ih =>
    intro d p q h _
    rw [findPathFrom_cons] at h
    by_cases hd : d < t.levels.length
    · rw [if_pos hd] at h
      cases hc : childIdx (blocksAt t d) p c with
      | none => rw [hc] at h; exact absurd h (by simp)
      | some q2 =>
        rw [hc] at h
        have := ih (d + 1) q2 q h hd
        simp only [List.length_cons]
        omega
    · rw [if_neg hd] at h
      exact absurd h (by simp)

theorem lookup_loop_zero [LinearOrder α] (trie : List (Level α))
    (key : Nat → α) (cur nid : Nat) :
    lookup_loop trie key 0 cur nid = some (some nid) := rfl

theorem lookup_loop_succ [LinearOrder α] (trie : List (Level α))
    (key : Nat → α) (steps cur nid : Nat) :
    lookup_loop trie key (steps + 1) cur nid =
      match trie[cur]? with
      | none => none
      | some lv =>
        match search_label_in_children lv.louds lv.labels (key (cur - 1))
            nid with
        | none => none
        | some (_, false) => some none
        | some (nid2, true) => lookup_loop trie key steps (cur + 1) nid2 := rfl

/-- The traversal loop of `lookup_key`, entered at depth `d + 1` on slot `p`
of depth `d`, computes exactly the abstract path resolution `findPathFrom`. -/
theorem lookup_loop_spec [LinearOrder α] (t : AbsTrie α) (hwf : WF t)
    (key : Nat → α) :
    ∀ (ks : List α) (d p : Nat), d + ks.length ≤ t.levels.length →
      p < numSlots t d →
      (∀ i, i < ks.length → ks[i]? = some (key (d + i))) →
      lookup_loop (toView t) key ks.length (d + 1) p =
        some (findPathFrom t d p ks) := by
  intro ks
  induction ks with
  | nil =>
    intro d p _ _ _
    rw [List.length_nil, lookup_loop_zero, findPathFrom_nil]
  | cons c cs ih =>
    intro d p hdep hp hkey
    have hd : d < t.levels.length := by
      simp only [List.length_cons] at hdep; omega
    have hview : (toView t)[d + 1]? = some (levelAt t (d + 1)) :=
      toView_getElem?_le t (d + 1)
        (by simp only [List.length_cons] at hdep; omega)
    have hkeyd : key d = c := by
      have h0 := hkey 0 (by simp)
      simp only [List.getElem?_cons_zero, Option.some.injEq, Nat.add_zero] at h0
      exact h0.symm
    obtain ⟨hblen, htlen, hsorted, hsize⟩ := hwf.1 d hd
    have hsize2 : ((blocksAt t d).map List.length).sum +
        (blocksAt t d).length < 2 ^ 31 := by
      rw [hblen, ← numSlots_succ_eq]
      exact hsize
    have hpb : p < (blocksAt t d).length := by rw [hblen]; exact hp
    rw [List.length_cons, lookup_loop_succ, hview]
    rw [findPathFrom_cons, if_pos hd]
    simp only [levelAt, sizesAt, Nat.add_sub_cancel, hkeyd]
    cases hc : childIdx (blocksAt t d) p c with
    | some q =>
      have hsearch := search_children_found (blocksAt t d) p q c hpb
        hsorted hsize2 hc
      rw [hsearch]
      have hq : q < numSlots t (d + 1) := by
        rw [numSlots_succ_eq]
        exact childIdx_lt_sum hc
      exact ih (d + 1) q
        (by simp only [List.length_cons] at hdep; omega) hq
        (fun i hi => by
          have hsh := hkey (i + 1) (by simp only [List.length_cons]; omega)
          simp only [List.getElem?_cons_succ] at hsh
          rw [hsh, show d + (i + 1) = d + 1 + i by omega])
    | none =>
      obtain ⟨j, hsearch⟩ := search_children_notfound (blocksAt t d) p c hpb
        hsorted hsize2 hc
      rw [hsearch]

/-! ## lookup_key against the abstract model -/

theorem findPath_def [LinearOrder α] (t : AbsTrie α) (ks : List α) :
    findPath t ks = findPathFrom t 0 0 ks := rfl

theorem levelAt_outs (t : AbsTrie α) (L : Nat) :
    (levelAt t L).outs = termsAt t L := by cases L <;> rfl

theorem levelAt_offset (t : AbsTrie α) (L : Nat) :
    (levelAt t L).offset = offsetAt t L := by cases L <;> rfl

theorem termsAt_length [LT α] (t : AbsTrie α) (hwf : WF t) (L : Nat)
    (hL : L ≤ t.levels.length) : (termsAt t L).length = numSlots t L := by
  cases L with
  | zero => rfl
  | succ d => exact (hwf.1 d (by omega)).2.1

theorem offsetAt_succ (t : AbsTrie α) (d : Nat) :
    offsetAt t (d + 1) = offsetAt t d + popcount (termsAt t d) := rfl

theorem offsetAt_mono (t : AbsTrie α) : ∀ {d1 d2 : Nat}, d1 ≤ d2 →
    offsetAt t d1 ≤ offsetAt t d2 := by
  intro d1 d2 h
  induction d2 with
  | zero =>
    obtain rfl : d1 = 0 := by omega
    exact Nat.le_refl _
  | succ d ih =>
    by_cases he : d1 = d + 1
    · subst he; exact Nat.le_refl _
    · have h1 := ih (by omega)
      have h2 := offsetAt_succ t d
      omega

theorem numSlots_zero (t : AbsTrie α) : numSlots t 0 = 1 := rfl

/-- Any key of the build set has rank below the key count. -/
theorem rankOfKey_lt_keyCount [LinearOrder α] (t : AbsTrie α) (hwf : WF t)
    (ks : List α) (hmem : memKey t ks = true) :
    rankOfKey t ks < keyCount t := by
  unfold memKey at hmem
  cases hfp : findPath t ks with
  | none => rw [hfp] at hmem; simp at hmem
  | some q =>
    rw [hfp] at hmem
    dsimp only at hmem
    have hq : q < numSlots t ks.length := by
      have := findPathFrom_lt t ks 0 0 q hfp (by rw [numSlots_zero]; omega)
      simpa using this
    have hlen2 : ks.length ≤ t.levels.length := by
      have := findPathFrom_le_length t ks 0 0 q hfp (Nat.zero_le _)
      simpa using this
    have htl := termsAt_length t hwf ks.length hlen2
    rw [List.getD_eq_getElem _ _ (by omega)] at hmem
    have hget : (termsAt t ks.length)[q]? = some true := by
      rw [List.getElem?_eq_getElem (by omega), hmem]
    have hblt := brank_lt_popcount hget
    unfold rankOfKey
    rw [hfp]
    dsimp only
    have hoff := offsetAt_succ t ks.length
    have hmono := offsetAt_mono t
      (show ks.length + 1 ≤ t.levels.length + 1 by omega)
    unfold keyCount
    omega

/-- Memory of the build set is confined to keys not deeper than the trie. -/
theorem memKey_le_length [LinearOrder α] (t : AbsTrie α) (ks : List α)
    (hmem : memKey t ks = true) : ks.length ≤ t.levels.length := by
  unfold memKey at hmem
  cases hfp : findPath t ks with
  | none => rw [hfp] at hmem; simp at hmem
  | some q =>
    have := findPathFrom_le_length t ks 0 0 q hfp (Nat.zero_le _)
    simpa using this

/-- Master correctness lemma: on a well-formed trie, a lookup of any key not
longer than the deepest level returns the key's rank when the key was stored,
and the NOT_FOUND sentinel otherwise. -/
theorem lookupList_eq [LinearOrder α] (t : AbsTrie α) (hwf : WF t)
    (dflt : α) (ks : List α) (hlen : ks.length ≤ t.levels.length) :
    lookupList t dflt ks =
      some (if memKey t ks then rankOfKey t ks else NOT_FOUND) := by
  unfold lookupList lookup_key
  have hloop := lookup_loop_spec t hwf (fun i => ks.getD i dflt) ks 0 0
    (by omega) (by rw [numSlots_zero]; omega)
    (fun i hi => by
      show ks[i]? = some (ks.getD (0 + i) dflt)
      simp only [Nat.zero_add]
      rw [List.getElem?_eq_getElem hi, List.getD_eq_getElem ks dflt hi])
  simp only [Nat.zero_add] at hloop
  rw [hloop, ← findPath_def]
  cases hfp : findPath t ks with
  | none =>
    dsimp only
    have hm : memKey t ks = false := by
      unfold memKey
      rw [hfp]
    rw [hm]
    rfl
  | some q =>
    dsimp only
    rw [toView_getElem?_le t ks.length hlen]
    dsimp only
    rw [levelAt_outs]
    have hq : q < numSlots t ks.length := by
      have := findPathFrom_lt t ks 0 0 q hfp (by rw [numSlots_zero]; omega)
      simpa using this
    have htl := termsAt_length t hwf ks.length hlen
    have hbg : bget (termsAt t ks.length) q =
        some ((termsAt t ks.length).getD q false) := by
      unfold bget
      rw [List.getElem?_eq_getElem (by omega),
        List.getD_eq_getElem _ _ (by omega)]
    rw [hbg]
    cases hb : (termsAt t ks.length).getD q false with
    | false =>
      dsimp only
      have hm : memKey t ks = false := by
        unfold memKey
        rw [hfp]
        exact hb
      rw [hm]
      rfl
    | true =>
      dsimp only
      have hm : memKey t ks = true := by
        unfold memKey
        rw [hfp]
        exact hb
      have hrank := rankOfKey_lt_keyCount t hwf ks hm
      have hkc := hwf.2
      have hNF : NOT_FOUND + 1 = U64 := rfl
      have hrOf : rankOfKey t ks = offsetAt t ks.length +
          brank (termsAt t ks.length) q := by
        unfold rankOfKey
        rw [hfp]
      rw [levelAt_offset, hm, ← hrOf, Nat.mod_eq_of_lt (by omega)]
      rfl

/-! ## Rank and terminal-bit combinatorics -/

theorem popcount_cons_true (bs : List Bool) :
    popcount (true :: bs) = popcount bs + 1 := by
  simp [popcount, List.filter]

theorem popcount_cons_false (bs : List Bool) :
    popcount (false :: bs) = popcount bs := by
  simp [popcount, List.filter]

theorem brank_cons_succ_true (bs : List Bool) (i : Nat) :
    brank (true :: bs) (i + 1) = brank bs i + 1 := by
  simp only [brank, List.take_succ_cons]
  exact popcount_cons_true _

theorem brank_cons_succ_false (bs : List Bool) (i : Nat) :
    brank (false :: bs) (i + 1) = brank bs i := by
  simp only [brank, List.take_succ_cons]
  exact popcount_cons_false _

/-- Every rank below the popcount is attained at a set-bit position. -/
theorem popcount_select (bs : List Bool) : ∀ j, j < popcount bs →
    ∃ i, i < bs.length ∧ bs[i]? = some true ∧ brank bs i = j := by
  induction bs with
  | nil => intro j hj; simp [popcount] at hj
  | cons b rest ih =>
    intro j hj
    cases b with
    | true =>
      cases j with
      | zero =>
        exact ⟨0, by simp, by simp, rfl⟩
      | succ j =>
        rw [popcount_cons_true] at hj
        obtain ⟨i, h1, h2, h3⟩ := ih j (by omega)
        refine ⟨i + 1, by simp only [List.length_cons]; omega, by simpa, ?_⟩
        rw [brank_cons_succ_true, h3]
    | false =>
      rw [popcount_cons_false] at hj
      obtain ⟨i, h1, h2, h3⟩ := ih j hj
      refine ⟨i + 1, by simp only [List.length_cons]; omega, by simpa, ?_⟩
      rw [brank_cons_succ_false, h3]

theorem brank_succ_of_true {bs : List Bool} {i : Nat}
    (h : bs[i]? = some true) : brank bs (i + 1) = brank bs i + 1 := by
  induction bs generalizing i with
  | nil => simp at h
  | cons b rest ih =>
    cases i with
    | zero =>
      simp only [List.getElem?_cons_zero, Option.some.injEq] at h
      subst h
      rw [brank_cons_succ_true]
      rfl
    | succ i =>
      simp only [List.getElem?_cons_succ] at h
      cases b with
      | true => rw [brank_cons_succ_true, brank_cons_succ_true, ih h]
      | false => rw [brank_cons_succ_false, brank_cons_succ_false, ih h]

theorem brank_mono (bs : List Bool) {i j : Nat} (h : i ≤ j) :
    brank bs i ≤ brank bs j := by
  unfold brank
  rw [show bs.take i = (bs.take j).take i by rw [List.take_take]; congr 1; omega]
  exact brank_le_popcount (bs.take j) i

theorem brank_strict_mono {bs : List Bool} {i j : Nat}
    (h : bs[i]? = some true) (hij : i < j) : brank bs i < brank bs j := by
  have h1 := brank_succ_of_true h
  have h2 := brank_mono bs (show i + 1 ≤ j by omega)
  omega

/-! ## Partition of the slot range by parent blocks -/

theorem sumTake_inv (ns : List Nat) : ∀ q, q < ns.sum →
    ∃ p, p < ns.length ∧ sumTake ns p ≤ q ∧ q < sumTake ns (p + 1) := by
  induction ns with
  | nil => intro q hq; simp at hq
  | cons n rest ih =>
    intro q hq
    by_cases hqn : q < n
    · refine ⟨0, by simp, by rw [sumTake_zero]; omega, ?_⟩
      rw [sumTake_cons_succ, sumTake_zero]
      omega
    · rw [List.sum_cons] at hq
      obtain ⟨p, hp, h1, h2⟩ := ih (q - n) (by omega)
      refine ⟨p + 1, by simp only [List.length_cons]; omega, ?_, ?_⟩
      · rw [sumTake_cons_succ]; omega
      · rw [sumTake_cons_succ]; omega

theorem childIdx_p_lt [LinearOrder α] {blocks : List (List α)} {p : Nat}
    {c : α} {q : Nat} (h : childIdx blocks p c = some q) :
    p < blocks.length := by
  by_contra hc
  rw [childIdx, List.getD_eq_default _ _ (Nat.le_of_not_lt hc)] at h
  simp [idxInBlock] at h

theorem childIdx_lt_sumTake_succ [LinearOrder α] {blocks : List (List α)}
    {p : Nat} {c : α} {q : Nat} (h : childIdx blocks p c = some q) :
    q < sumTake (blocks.map List.length) (p + 1) := by
  have hp := childIdx_p_lt h
  obtain ⟨hB, hk, _⟩ := childIdx_some_getElem? h
  have hE := sumTake_succ_getD (blocks.map List.length) p (by simpa using hp)
  rw [sizes_getD blocks p hp] at hE
  omega

/-- Two children resolving to the same global slot have the same parent and
the same label. -/
theorem childIdx_inj [LinearOrder α] {blocks : List (List α)}
    {p1 p2 : Nat} {c1 c2 : α} {q : Nat}
    (h1 : childIdx blocks p1 c1 = some q)
    (h2 : childIdx blocks p2 c2 = some q) : p1 = p2 ∧ c1 = c2 := by
  have hp1 := childIdx_p_lt h1
  have hp2 := childIdx_p_lt h2
  obtain ⟨hB1, hk1, hg1⟩ := childIdx_some_getElem? h1
  obtain ⟨hB2, hk2, hg2⟩ := childIdx_some_getElem? h2
  have he1 := childIdx_lt_sumTake_succ h1
  have he2 := childIdx_lt_sumTake_succ h2
  have hpp : p1 = p2 := by
    by_contra hne
    rcases Nat.lt_or_ge p1 p2 with hlt | hge
    · have := sumTake_mono (blocks.map List.length)
        (show p1 + 1 ≤ p2 by omega)
      omega
    · have := sumTake_mono (blocks.map List.length)
        (show p2 + 1 ≤ p1 by omega)
      omega
  subst hpp
  refine ⟨rfl, ?_⟩
  rw [hg1] at hg2
  exact Option.some_injective _ hg2

/-! ## Path composition, injectivity and reachability -/

theorem findPathFrom_append [LinearOrder α] (t : AbsTrie α) :
    ∀ (xs ys : List α) (d p : Nat),
      findPathFrom t d p (xs ++ ys) =
        match findPathFrom t d p xs with
        | none => none
        | some q => findPathFrom t (d + xs.length) q ys := by
  intro xs
  induction xs with
  | nil =>
    intro ys d p
    rw [List.nil_append, findPathFrom_nil]
    simp
  | cons c cs ih =>
    intro ys d p
    rw [List.cons_append, findPathFrom_cons, findPathFrom_cons]
    by_cases hd : d < t.levels.length
    · rw [if_pos hd, if_pos hd]
      cases hc : childIdx (blocksAt t d) p c with
      | none => rfl
      | some q =>
        dsimp only
        rw [ih ys (d + 1) q,
          show d + (c :: cs).length = d + 1 + cs.length by
            simp only [List.length_cons]; omega]
    · rw [if_neg hd, if_neg hd]

/-- On a well-formed trie, two traversals of keys of equal length ending at
the same slot started at the same slot and followed the same symbols. -/
theorem findPathFrom_inj [LinearOrder α] (t : AbsTrie α) (hwf : WF t) :
    ∀ (ks1 ks2 : List α) (d p1 p2 q : Nat), ks1.length = ks2.length →
      findPathFrom t d p1 ks1 = some q → findPathFrom t d p2 ks2 = some q →
      p1 = p2 ∧ ks1 = ks2 := by
  intro ks1
  induction ks1 with
  | nil =>
    intro ks2 d p1 p2 q hl h1 h2
    have hk2 : ks2 = [] := List.eq_nil_of_length_eq_zero hl.symm
    subst hk2
    rw [findPathFrom_nil] at h1 h2
    have e1 := Option.some_injective _ h1
    have e2 := Option.some_injective _ h2
    exact ⟨e1.trans e2.symm, rfl⟩
  | cons c1 cs1 ih =>
    intro ks2 d p1 p2 q hl h1 h2
    cases ks2 with
    | nil => simp at hl
    | cons c2 cs2 =>
      simp only [List.length_cons] at hl
      rw [findPathFrom_cons] at h1 h2
      by_cases hd : d < t.levels.length
      · rw [if_pos hd] at h1 h2
        cases hc1 : childIdx (blocksAt t d) p1 c1 with
        | none => rw [hc1] at h1; exact absurd h1 (by simp)
        | some q1 =>
          cases hc2 : childIdx (blocksAt t d) p2 c2 with
          | none => rw [hc2] at h2; exact absurd h2 (by simp)
          | some q2 =>
            rw [hc1] at h1
            rw [hc2] at h2
            obtain ⟨hq12, hcs12⟩ := ih cs2 (d + 1) q1 q2 q (by omega) h1 h2
            subst hq12
            obtain ⟨hp12, hc12⟩ := childIdx_inj hc1 hc2
            rw [hp12, hc12, hcs12]
            exact ⟨rfl, rfl⟩
      · rw [if_neg hd] at h1
        exact absurd h1 (by simp)

/-- On a well-formed trie every slot of every depth is reached by some key. -/
theorem slot_reachable [LinearOrder α] (t : AbsTrie α) (hwf : WF t) :
    ∀ (L : Nat), L ≤ t.levels.length → ∀ q, q < numSlots t L →
      ∃ ks : List α, ks.length = L ∧ findPath t ks = some q := by
  intro L
  induction L with
  | zero =>
    intro _ q hq
    rw [numSlots_zero] at hq
    obtain rfl : q = 0 := by omega
    exact ⟨[], rfl, rfl⟩
  | succ L ih =>
    intro hL q hq
    rw [numSlots_succ_eq] at hq
    obtain ⟨p, hp, hB, hE0⟩ := sumTake_inv ((blocksAt t L).map List.length) q hq
    have hpb : p < (blocksAt t L).length := by simpa using hp
    obtain ⟨hblen, _, hsorted, _⟩ := hwf.1 L (by omega)
    have hE := sumTake_succ_getD ((blocksAt t L).map List.length) p hp
    rw [sizes_getD _ p hpb] at hE
    have hkb : q - sumTake ((blocksAt t L).map List.length) p <
        ((blocksAt t L).getD p []).length := by omega
    have hcget : ((blocksAt t L).getD p [])[q -
        sumTake ((blocksAt t L).map List.length) p]? =
        some (((blocksAt t L).getD p []).get
          ⟨q - sumTake ((blocksAt t L).map List.length) p, hkb⟩) := by
      rw [List.getElem?_eq_getElem hkb]
      simp
    have hidx := idxInBlock_of_getElem?
      (hsorted _ (getD_mem_of_lt _ p hpb)) hcget
    have hci : childIdx (blocksAt t L) p
        (((blocksAt t L).getD p []).get
          ⟨q - sumTake ((blocksAt t L).map List.length) p, hkb⟩) = some q := by
      rw [childIdx, hidx]
      simp only [Option.map_some', Option.some.injEq]
      omega
    obtain ⟨ks0, hlen0, hpath0⟩ := ih (by omega) p (by rw [← hblen]; exact hpb)
    refine ⟨ks0 ++ [((blocksAt t L).getD p []).get
      ⟨q - sumTake ((blocksAt t L).map List.length) p, hkb⟩], by simp [hlen0], ?_⟩
    rw [findPath_def, findPathFrom_append]
    rw [findPath_def] at hpath0
    rw [hpath0]
    dsimp only
    rw [hlen0, Nat.zero_add, findPathFrom_cons, if_pos (by omega), hci]
    rfl

/-! ## Rank bijectivity infrastructure -/

theorem offsetAt_inv_aux (t : AbsTrie α) : ∀ (n r : Nat), r < offsetAt t n →
    ∃ L, L < n ∧ offsetAt t L ≤ r ∧ r < offsetAt t (L + 1) := by
  intro n
  induction n with
  | zero =>
    intro r hr
    exact absurd hr (by simp [offsetAt])
  | succ n ih =>
    intro r hr
    by_cases hrn : r < offsetAt t n
    · obtain ⟨L, h1, h2, h3⟩ := ih r hrn
      exact ⟨L, by omega, h2, h3⟩
    · exact ⟨n, by omega, by omega, hr⟩

/-- Structure of a stored key: its path slot, bounds, terminal bit and rank. -/
theorem memKey_extract [LinearOrder α] (t : AbsTrie α) (hwf : WF t)
    (ks : List α) (hmem : memKey t ks = true) :
    ∃ q, findPath t ks = some q ∧ q < numSlots t ks.length ∧
      ks.length ≤ t.levels.length ∧
      (termsAt t ks.length)[q]? = some true ∧
      rankOfKey t ks = offsetAt t ks.length + brank (termsAt t ks.length) q := by
  unfold memKey at hmem
  cases hfp : findPath t ks with
  | none => rw [hfp] at hmem; simp at hmem
  | some q =>
    rw [hfp] at hmem
    dsimp only at hmem
    have hq : q < numSlots t ks.length := by
      have := findPathFrom_lt t ks 0 0 q hfp (by rw [numSlots_zero]; omega)
      simpa using this
    have hlen2 : ks.length ≤ t.levels.length := by
      have := findPathFrom_le_length t ks 0 0 q hfp (Nat.zero_le _)
      simpa using this
    have htl := termsAt_length t hwf ks.length hlen2
    rw [List.getD_eq_getElem _ _ (by omega)] at hmem
    refine ⟨q, rfl, hq, hlen2, ?_, ?_⟩
    · rw [List.getElem?_eq_getElem (by omega), hmem]
    · unfold rankOfKey
      rw [hfp]

/-- Distinct stored keys receive distinct ranks. -/
theorem rankOfKey_inj [LinearOrder α] (t : AbsTrie α) (hwf : WF t)
    (ks1 ks2 : List α) (h1 : memKey t ks1 = true) (h2 : memKey t ks2 = true)
    (heq : rankOfKey t ks1 = rankOfKey t ks2) : ks1 = ks2 := by
  obtain ⟨q1, hp1, hq1, hl1, hb1, hr1⟩ := memKey_extract t hwf ks1 h1
  obtain ⟨q2, hp2, hq2, hl2, hb2, hr2⟩ := memKey_extract t hwf ks2 h2
  have hw1 := brank_lt_popcount hb1
  have hw2 := brank_lt_popcount hb2
  have hLL : ks1.length = ks2.length := by
    by_contra hne
    rcases Nat.lt_or_ge ks1.length ks2.length with hlt | hge
    · have hm := offsetAt_mono t (show ks1.length + 1 ≤ ks2.length by omega)
      have o1 := offsetAt_succ t ks1.length
      omega
    · have hm := offsetAt_mono t (show ks2.length + 1 ≤ ks1.length by omega)
      have o2 := offsetAt_succ t ks2.length
      omega
  rw [hLL] at hr1 hb1
  have hqq : q1 = q2 := by
    by_contra hne
    rcases Nat.lt_or_ge q1 q2 with hlt | hgt
    · have := brank_strict_mono hb1 hlt
      omega
    · have hgt2 : q2 < q1 := by omega
      have := brank_strict_mono hb2 hgt2
      omega
  subst hqq
  exact (findPathFrom_inj t hwf ks1 ks2 0 0 0 q1 hLL hp1 hp2).2

/-- Every rank below the key count is the rank of some stored key. -/
theorem rankOfKey_surj [LinearOrder α] (t : AbsTrie α) (hwf : WF t) :
    ∀ r, r < keyCount t → ∃ ks, memKey t ks = true ∧ rankOfKey t ks = r := by
  intro r hr
  obtain ⟨L, hLlt, h1, h2⟩ := offsetAt_inv_aux t (t.levels.length + 1) r hr
  have hL : L ≤ t.levels.length := by omega
  rw [offsetAt_succ] at h2
  obtain ⟨i, hi, hbit, hbr⟩ :=
    popcount_select (termsAt t L) (r - offsetAt t L) (by omega)
  have htl := termsAt_length t hwf L hL
  obtain ⟨ks, hkl, hpath⟩ := slot_reachable t hwf L hL i (by omega)
  have hgeti : (termsAt t L)[i] = true := by
    rw [List.getElem?_eq_getElem hi] at hbit
    exact Option.some_injective _ hbit
  have hmem : memKey t ks = true := by
    unfold memKey
    rw [hpath, hkl]
    dsimp only
    rw [List.getD_eq_getElem _ _ hi]
    exact hgeti
  refine ⟨ks, hmem, ?_⟩
  unfold rankOfKey
  rw [hpath, hkl]
  dsimp only
  rw [hbr]
  omega

/-! ## Loop decomposition and failure propagation -/

theorem bsearch_loop_empty [LinearOrder α] (labels : List α) (target : α)
    (fuel b nid : Nat) :
    bsearch_loop labels target fuel b b nid = some (nid, false) := by
  cases fuel with
  | zero =>
    simp only [bsearch_loop]
    rw [if_neg (by omega)]
  | succ fuel =>
    simp only [bsearch_loop]
    rw [if_neg (by omega)]

theorem lookup_loop_split [LinearOrder α] (trie : List (Level α))
    (key : Nat → α) : ∀ (a b cur nid : Nat),
      lookup_loop trie key (a + b) cur nid =
        match lookup_loop trie key a cur nid with
        | none => none
        | some none => some none
        | some (some q) => lookup_loop trie key b (cur + a) q := by
  intro a
  induction a with
  | zero =>
    intro b cur nid
    rw [Nat.zero_add, lookup_loop_zero]
    dsimp only
    rw [Nat.add_zero]
  | succ a ih =>
    intro b cur nid
    rw [show a + 1 + b = a + b + 1 by omega, lookup_loop_succ,
      lookup_loop_succ trie key a cur nid]
    cases hv : trie[cur]? with
    | none => rfl
    | some lv =>
      dsimp only
      cases hs : search_label_in_children lv.louds lv.labels (key (cur - 1))
          nid with
      | none => rfl
      | some pr =>
        obtain ⟨nid2, found⟩ := pr
        cases found with
        | false => rfl
        | true =>
          dsimp only
          rw [ih b (cur + 1) nid2, show cur + 1 + a = cur + (a + 1) by omega]

/-- Once a label search fails at some depth, the whole lookup returns the
NOT_FOUND sentinel, whatever the remaining key symbols are. -/
theorem lookup_key_notfound_of_fail [LinearOrder α] (trie : List (Level α))
    (key : Nat → α) (a L j nid : Nat) (lv : Level α)
    (hreach : lookup_loop trie key a 1 0 = some (some nid))
    (hlv : trie[a + 1]? = some lv)
    (hfail : search_label_in_children lv.louds lv.labels (key a) nid =
      some (j, false))
    (hL : a + 1 ≤ L) :
    lookup_key trie key L = some NOT_FOUND := by
  unfold lookup_key
  rw [show L = a + (L - a) by omega, lookup_loop_split, hreach]
  dsimp only
  rw [show 1 + a = a + 1 by omega,
    show L - a = (L - a - 1) + 1 by omega, lookup_loop_succ, hlv]
  dsimp only
  rw [show a + 1 - 1 = a by omega, hfail]

theorem lookupList_mem [LinearOrder α] (t : AbsTrie α) (hwf : WF t)
    (dflt : α) (ks : List α) (hmem : memKey t ks = true) :
    lookupList t dflt ks = some (rankOfKey t ks) := by
  rw [lookupList_eq t hwf dflt ks (memKey_le_length t ks hmem), hmem]
  rfl

theorem lookupList_notmem [LinearOrder α] (t : AbsTrie α) (hwf : WF t)
    (dflt : α) (ks : List α) (hmem : memKey t ks = false)
    (hlen : ks.length ≤ t.levels.length) :
    lookupList t dflt ks = some NOT_FOUND := by
  rw [lookupList_eq t hwf dflt ks hlen, hmem]
  rfl

/-! ## Example tries used by the concrete witnesses -/

/-- Example trie storing the keys [1], [1,14], [1,14,4], [1,14,20] (the
spec's scenario a / an / and / ant with a=1, n=14, d=4, t=20). -/
def exTrie : AbsTrie Nat :=
  ⟨false, [⟨[[1]], [true]⟩, ⟨[[14]], [true]⟩, ⟨[[4, 20]], [true, true]⟩]⟩

/-- Example trie storing [2] and [1,5]; the slot labelled 2 has no children. -/
def exTrie2 : AbsTrie Nat :=
  ⟨false, [⟨[[1, 2]], [false, true]⟩, ⟨[[5], []], [true]⟩]⟩

/-! ## Claim theorems -/

/-- Claim C1 (amended): on a well-formed trie, every key of the build set
looks up to a rank in `[0, keyCount)`, and every key not in the build set
whose length does not exceed the trie's maximum depth looks up to NOT_FOUND.
The amendment adds the length bound on the absent-key branch: for a longer
key the source indexes the per-level arrays out of bounds. -/
theorem c1_membership [LinearOrder α] (t : AbsTrie α) (hwf : WF t)
    (dflt : α) (ks : List α) :
    (memKey t ks = true →
      ∃ r, lookupList t dflt ks = some r ∧ r < keyCount t) ∧
    (memKey t ks = false → ks.length ≤ t.levels.length →
      lookupList t dflt ks = some NOT_FOUND) := by
  constructor
  · intro hmem
    exact ⟨rankOfKey t ks, lookupList_mem t hwf dflt ks hmem,
      rankOfKey_lt_keyCount t hwf ks hmem⟩
  · intro hmem hlen
    exact lookupList_notmem t hwf dflt ks hmem hlen

theorem c1_witness :
    (∃ r, lookupList exTrie 0 [1, 14] = some r ∧ r < keyCount exTrie) ∧
    lookupList exTrie 0 [2] = some NOT_FOUND :=
  ⟨(c1_membership exTrie (by decide) 0 [1, 14]).1 (by decide),
   (c1_membership exTrie (by decide) 0 [2]).2 (by decide) (by decide)⟩

/-- Claim C1 counterexample: on the well-formed one-key trie holding only the
empty key, looking up the absent one-symbol key [0] does not return the
NOT_FOUND sentinel — the traversal indexes the level arrays out of range
(error outcome `none` in this embedding), refuting the claim as stated for
keys longer than the trie's deepest level. -/
theorem c1_counterexample :
    WF (⟨true, []⟩ : AbsTrie Nat) ∧
    ¬ (memKey (⟨true, []⟩ : AbsTrie Nat) [0] = false →
        lookupList (⟨true, []⟩ : AbsTrie Nat) 0 [0] = some NOT_FOUND) := by
  refine ⟨by decide, fun h => ?_⟩
  have h2 : lookupList (⟨true, []⟩ : AbsTrie Nat) 0 [0] = none := rfl
  exact Option.noConfusion (h2.symm.trans (h rfl))

/-- Claim C2: on a well-formed trie, lookup restricted to the build set is
injective, lands in `[0, keyCount)`, and attains every rank in that range —
a bijection between stored keys and dense ranks. -/
theorem c2_bijection [LinearOrder α] (t : AbsTrie α) (hwf : WF t) (dflt : α) :
    (∀ ks1 ks2 : List α, memKey t ks1 = true → memKey t ks2 = true →
      lookupList t dflt ks1 = lookupList t dflt ks2 → ks1 = ks2) ∧
    (∀ ks : List α, memKey t ks = true →
      ∃ r, lookupList t dflt ks = some r ∧ r < keyCount t) ∧
    (∀ r, r < keyCount t →
      ∃ ks : List α, memKey t ks = true ∧ lookupList t dflt ks = some r) := by
  refine ⟨?_, ?_, ?_⟩
  · intro ks1 ks2 h1 h2 heq
    rw [lookupList_mem t hwf dflt ks1 h1,
      lookupList_mem t hwf dflt ks2 h2] at heq
    exact rankOfKey_inj t hwf ks1 ks2 h1 h2 (Option.some_injective _ heq)
  · intro ks hmem
    exact ⟨rankOfKey t ks, lookupList_mem t hwf dflt ks hmem,
      rankOfKey_lt_keyCount t hwf ks hmem⟩
  · intro r hr
    obtain ⟨ks, hmem, hrank⟩ := rankOfKey_surj t hwf r hr
    exact ⟨ks, hmem, by rw [lookupList_mem t hwf dflt ks hmem, hrank]⟩

theorem c2_witness :
    ∃ ks : List Nat, memKey exTrie ks = true ∧
      lookupList exTrie 0 ks = some 3 :=
  (c2_bijection exTrie (by decide) 0).2.2 3 (by decide)

/-- Claim C6: for every key whose traversal reaches a terminal final slot,
the returned value equals `levels[length].offset +
levels[length].terminalBits.rank(nodeIndex)` for the matched final slot. -/
theorem c6_rank_formula [LinearOrder α] (t : AbsTrie α) (hwf : WF t)
    (dflt : α) (ks : List α) (q : Nat) (hq : findPath t ks = some q)
    (hterm : (termsAt t ks.length).getD q false = true) :
    lookupList t dflt ks =
      some ((levelAt t ks.length).offset +
        brank (levelAt t ks.length).outs q) := by
  have hmem : memKey t ks = true := by
    unfold memKey
    rw [hq]
    exact hterm
  rw [lookupList_mem t hwf dflt ks hmem, levelAt_offset, levelAt_outs]
  congr 1
  unfold rankOfKey
  rw [hq]

theorem c6_witness :
    lookupList exTrie 0 [1, 14, 20] =
      some ((levelAt exTrie 3).offset + brank (levelAt exTrie 3).outs 1) :=
  c6_rank_formula exTrie (by decide) 0 [1, 14, 20] 1 rfl (by decide)

/-- Claim C7 (amended): for every key within the trie's depth, the lookup
result is either a valid rank below the key count or the single NOT_FOUND
sentinel (the maximum uint64 value); both failure causes collapse to that
same sentinel.  The amendment restricts the claim to keys whose length does
not exceed the trie's depth: for longer keys the source reads the level
arrays out of bounds instead of producing any value. -/
theorem c7_result_shape [LinearOrder α] (t : AbsTrie α) (hwf : WF t)
    (dflt : α) (ks : List α) (hlen : ks.length ≤ t.levels.length) :
    (∃ r, lookupList t dflt ks = some r ∧
      (r < keyCount t ∨ r = NOT_FOUND)) ∧
    (memKey t ks = false → lookupList t dflt ks = some NOT_FOUND) := by
  constructor
  · cases hmem : memKey t ks with
    | true =>
      exact ⟨rankOfKey t ks, lookupList_mem t hwf dflt ks hmem,
        Or.inl (rankOfKey_lt_keyCount t hwf ks hmem)⟩
    | false =>
      exact ⟨NOT_FOUND, lookupList_notmem t hwf dflt ks hmem hlen,
        Or.inr rfl⟩
  · intro hmem
    exact lookupList_notmem t hwf dflt ks hmem hlen

theorem c7_witness :
    ∃ r, lookupList exTrie 0 [1, 15] = some r ∧
      (r < keyCount exTrie ∨ r = NOT_FOUND) :=
  (c7_result_shape exTrie (by decide) 0 [1, 15] (by decide)).1

/-- Claim C7 counterexample: on the well-formed empty-build-set trie, the
lookup of the one-symbol key [5] yields neither a rank nor the sentinel: the
source's traversal reads the level arrays out of range (error outcome `none`
in this embedding), so the claim fails when quantified over every input. -/
theorem c7_counterexample :
    WF (⟨false, []⟩ : AbsTrie Nat) ∧
    ¬ ∃ r, lookupList (⟨false, []⟩ : AbsTrie Nat) 0 [5] = some r ∧
      (r < keyCount (⟨false, []⟩ : AbsTrie Nat) ∨ r = NOT_FOUND) := by
  refine ⟨by decide, ?_⟩
  rintro ⟨r, hr, _⟩
  have h2 : lookupList (⟨false, []⟩ : AbsTrie Nat) 0 [5] = none := rfl
  exact Option.noConfusion (h2.symm.trans hr)

/-- Claim C8: with `length = 0` the traversal loop is skipped, `nodeIndex`
stays 0, and lookup returns `levels[0].offset + levels[0].terminalBits.rank(0)`
when slot 0 of level 0 is marked terminal, NOT_FOUND when it is not; in the
abstract model the empty key belongs to the build set exactly when the root's
terminal bit is set. -/
theorem c8_empty_key [LinearOrder α] (trie : List (Level α)) (key : Nat → α)
    (lv0 : Level α) (bit : Bool) (h0 : trie[0]? = some lv0)
    (hb : bget lv0.outs 0 = some bit) :
    lookup_key trie key 0 =
      some (if bit then (lv0.offset + brank lv0.outs 0) % U64
        else NOT_FOUND) ∧
    (∀ t : AbsTrie α, memKey t [] = t.rootTerm) := by
  constructor
  · unfold lookup_key
    rw [lookup_loop_zero]
    dsimp only
    rw [h0]
    dsimp only
    rw [hb]
    cases bit with
    | false => rfl
    | true => rfl
  · intro t
    rfl

theorem c8_witness :
    lookup_key [(⟨[], 5, [], [true]⟩ : Level Nat)] (fun _ => 0) 0 =
      some (if true then
        ((⟨[], 5, [], [true]⟩ : Level Nat).offset +
          brank (⟨[], 5, [], [true]⟩ : Level Nat).outs 0) % U64
        else NOT_FOUND) :=
  (c8_empty_key [(⟨[], 5, [], [true]⟩ : Level Nat)] (fun _ => 0)
    ⟨[], 5, [], [true]⟩ true rfl rfl).1

/-- Claim C10: `lookup_key` validates nothing about the key length.  Under
the precondition that the length does not exceed the number of levels minus
one, every array and bit-sequence access is in bounds on a well-formed trie
(the error outcome is unreachable); without the precondition the level-array
access is out of bounds (witnessed by a concrete well-formed trie and an
over-long key reaching the error outcome). -/
theorem c10_access_bounds :
    (∀ (α : Type) [LinearOrder α] (t : AbsTrie α) (dflt : α) (ks : List α),
      WF t → ks.length ≤ t.levels.length → lookupList t dflt ks ≠ none) ∧
    (WF (⟨true, []⟩ : AbsTrie Nat) ∧
      lookupList (⟨true, []⟩ : AbsTrie Nat) 0 [0, 0] = none) := by
  constructor
  · intro α _ t dflt ks hwf hlen
    rw [lookupList_eq t hwf dflt ks hlen]
    exact fun h => Option.noConfusion h
  · exact ⟨by decide, rfl⟩

theorem c10_witness :
    lookupList exTrie 0 [1, 14, 4] ≠ none :=
  c10_access_bounds.1 Nat exTrie 0 [1, 14, 4] (by decide) (by decide)

/-- Claim C3: whenever the bit-sequence primitives are defined (select needs
`p` set bits, findNextSet needs a set bit ahead), `get_last_child_position`
leaves `node_id` equal to `begin` — 0 for parent 0, `select(p−1)+1−p`
otherwise — and returns `end = begin + (findNextSet(blockStart) − blockStart)`
with `blockStart = select(p−1)+1` (0 for parent 0). -/
theorem c3_child_range (louds : List Bool) (p s f0 f : Nat)
    (hlen : louds.length < U32) :
    (p = 0 → findNextSet louds 0 = some f0 →
      get_last_child_position louds p = some (0, 0 + (f0 - 0))) ∧
    (p ≠ 0 → bselect louds (p - 1) = some s →
      findNextSet louds (s + 1) = some f →
      get_last_child_position louds p =
        some (s + 1 - p, (s + 1 - p) + (f - (s + 1)))) := by
  constructor
  · intro hp hf0
    subst hp
    rw [glcp_zero_branch, hf0]
    dsimp only
    obtain ⟨hge, hlt⟩ := findNextSet_bounds hf0
    rw [sub32_eq (Nat.zero_le _) (by omega), add32_eq (by omega)]
  · intro hp hsel hf
    obtain ⟨k, rfl⟩ : ∃ k, p = k + 1 := ⟨p - 1, by omega⟩
    rw [show k + 1 - 1 = k by omega] at hsel
    rw [glcp_succ_branch, hsel]
    dsimp only
    obtain ⟨hks, hslen⟩ := bselect_bounds hsel
    have ha1 : add32 s 1 = s + 1 := add32_eq (by omega)
    rw [ha1, hf]
    dsimp only
    obtain ⟨hgef, hflen⟩ := findNextSet_bounds hf
    rw [sub32_eq (by omega) (by omega), sub32_eq (by omega) (by omega),
      add32_eq (by omega)]

theorem c3_witness :
    get_last_child_position [false, true, false, false, true] 1 =
      some (1 + 1 - 1, (1 + 1 - 1) + (4 - (1 + 1))) :=
  (c3_child_range [false, true, false, false, true] 1 1 0 4 (by decide)).2
    (by decide) rfl rfl

/-- Claim C4: on a well-formed trie, for a fixed child depth the ranges
produced by the child-range resolver over all parent slots, in index order,
are the consecutive prefix-sum intervals of the block sizes: consecutive
ranges abut, the first begins at 0, and the last ends at the label-array
length — an exact partition of the child depth's slot range. -/
theorem c4_partition [LinearOrder α] (t : AbsTrie α) (hwf : WF t) (d : Nat)
    (hd : d < t.levels.length) :
    (∀ p, p < numSlots t d →
      get_last_child_position (levelAt t (d + 1)).louds p =
        some (sumTake (sizesAt t d) p, sumTake (sizesAt t d) (p + 1))) ∧
    (∀ p, p + 1 < numSlots t d →
      ∃ b1 m e2, get_last_child_position (levelAt t (d + 1)).louds p =
          some (b1, m) ∧
        get_last_child_position (levelAt t (d + 1)).louds (p + 1) =
          some (m, e2)) ∧
    sumTake (sizesAt t d) 0 = 0 ∧
    sumTake (sizesAt t d) (numSlots t d) =
      (levelAt t (d + 1)).labels.length := by
  obtain ⟨hblen, _, _, hsize⟩ := hwf.1 d hd
  have hns : (sizesAt t d).length = numSlots t d := by
    rw [show (sizesAt t d).length = (blocksAt t d).length by simp [sizesAt]]
    exact hblen
  have hsum : (sizesAt t d).sum = numSlots t (d + 1) := rfl
  have hU32 : U32 = 4294967296 := rfl
  have h31 : (2 : Nat) ^ 31 = 2147483648 := by norm_num
  have hlou : (levelAt t (d + 1)).louds = loudsOfSizes (sizesAt t d) := rfl
  have hlab : (levelAt t (d + 1)).labels.length = (sizesAt t d).sum := by
    rw [show (levelAt t (d + 1)).labels = (blocksAt t d).flatten from rfl,
      List.length_flatten]
    rfl
  refine ⟨?_, ?_, rfl, ?_⟩
  · intro p hp
    rw [hlou]
    exact glcp_louds (sizesAt t d) p (by omega) (by omega)
  · intro p hp
    refine ⟨sumTake (sizesAt t d) p, sumTake (sizesAt t d) (p + 1),
      sumTake (sizesAt t d) (p + 1 + 1), ?_, ?_⟩
    · rw [hlou]
      exact glcp_louds (sizesAt t d) p (by omega) (by omega)
    · rw [hlou]
      exact glcp_louds (sizesAt t d) (p + 1) (by omega) (by omega)
  · rw [hlab, ← hns, sumTake_length]

theorem c4_witness :
    get_last_child_position (levelAt exTrie (2 + 1)).louds 0 =
      some (sumTake (sizesAt exTrie 2) 0, sumTake (sizesAt exTrie 2) (0 + 1)) :=
  (c4_partition exTrie (by decide) 2 (by decide)).1 0 (by decide)

/-- Claim C5: given the resolved child range `[b, e)` over an ascending label
slice, the binary search of `search_label_in_children` returns the index of
the searched symbol with flag true whenever the symbol occurs in the slice,
returns flag false when it does not, and a failed search at any depth makes
the whole `lookup_key` return NOT_FOUND immediately for that key. -/
theorem c5_search [LinearOrder α] (louds : List Bool) (labels : List α)
    (target : α) (p b e : Nat)
    (hr : get_last_child_position louds p = some (b, e))
    (he : e ≤ labels.length) (hU : 2 * e ≤ U32)
    (hsort : SortedSlice labels b e) :
    (∀ i, b ≤ i → i < e → labels[i]? = some target →
      search_label_in_children louds labels target p = some (i, true)) ∧
    ((∀ i x, b ≤ i → i < e → labels[i]? = some x → x ≠ target) →
      ∃ j, search_label_in_children louds labels target p =
        some (j, false)) ∧
    (∀ (trie : List (Level α)) (key : Nat → α) (a L j nid : Nat)
        (lv : Level α),
      lookup_loop trie key a 1 0 = some (some nid) →
      trie[a + 1]? = some lv →
      search_label_in_children lv.louds lv.labels (key a) nid =
        some (j, false) →
      a + 1 ≤ L → lookup_key trie key L = some NOT_FOUND) := by
  have hun : search_label_in_children louds labels target p =
      bsearch_loop labels target e b e b := by
    unfold search_label_in_children
    rw [hr]
  refine ⟨?_, ?_, fun trie key a L j nid lv h1 h2 h3 h4 =>
    lookup_key_notfound_of_fail trie key a L j nid lv h1 h2 h3 h4⟩
  · intro i hbi hie hit
    rw [hun]
    rcases bsearch_loop_spec labels target e b e b he hU (by omega) hsort with
      ⟨i2, h1, h2, h3, h4⟩ | ⟨hnone, j, hj⟩
    · have hii : i = i2 := by
        by_contra hne
        rcases Nat.lt_or_ge i i2 with hlt | hge
        · exact absurd (hsort i i2 target target hbi hlt h2 hit h3)
            (lt_irrefl _)
        · exact absurd (hsort i2 i target target h1 (by omega) hie h3 hit)
            (lt_irrefl _)
      rw [hii]
      exact h4
    · exact absurd rfl (hnone i target hbi hie hit)
  · intro hnone2
    rw [hun]
    rcases bsearch_loop_spec labels target e b e b he hU (by omega) hsort with
      ⟨i2, h1, h2, h3, _⟩ | ⟨_, j, hj⟩
    · exact absurd rfl (hnone2 i2 target h1 h2 h3)
    · exact ⟨j, hj⟩

theorem c5_witness :
    search_label_in_children [false, false, true] [10, 20] 20 0 =
      some (1, true) :=
  (c5_search [false, false, true] [10, 20] 20 0 0 2 rfl (by decide)
    (by decide)
    (fun i j x y h1 h2 h3 hx hy => by
      obtain rfl : i = 0 := by omega
      obtain rfl : j = 1 := by omega
      simp only [List.getElem?_cons_zero, List.getElem?_cons_succ,
        Option.some.injEq] at hx hy
      omega)).1 1 (by omega) (by omega) rfl

/-- Claim C9: on a well-formed trie, a parent slot with zero children
resolves to an empty child range (`begin = end`), the binary search over
that empty range fails for every searched symbol, and any key descending
through such a node looks up to NOT_FOUND. -/
theorem c9_empty_children [LinearOrder α] (t : AbsTrie α) (hwf : WF t)
    (dflt : α) (d p : Nat) (hd : d < t.levels.length) (hp : p < numSlots t d)
    (hempty : (blocksAt t d).getD p [] = []) :
    (get_last_child_position (levelAt t (d + 1)).louds p =
      some (sumTake (sizesAt t d) p, sumTake (sizesAt t d) p)) ∧
    (∀ target : α, search_label_in_children (levelAt t (d + 1)).louds
        (levelAt t (d + 1)).labels target p =
      some (sumTake (sizesAt t d) p, false)) ∧
    (∀ (pre rest : List α) (c : α), findPath t pre = some p →
      pre.length = d →
      lookupList t dflt (pre ++ c :: rest) = some NOT_FOUND) := by
  obtain ⟨hblen, _, _, hsize⟩ := hwf.1 d hd
  have hns : (sizesAt t d).length = numSlots t d := by
    rw [show (sizesAt t d).length = (blocksAt t d).length by simp [sizesAt]]
    exact hblen
  have hU32 : U32 = 4294967296 := rfl
  have h31 : (2 : Nat) ^ 31 = 2147483648 := by norm_num
  have hsum : (sizesAt t d).sum = numSlots t (d + 1) := rfl
  have hpb : p < (blocksAt t d).length := by rw [hblen]; exact hp
  have hsz : sumTake (sizesAt t d) (p + 1) = sumTake (sizesAt t d) p := by
    have hstep := sumTake_succ_getD (sizesAt t d) p (by omega)
    rw [show (sizesAt t d).getD p 0 = ((blocksAt t d).getD p []).length from
      sizes_getD (blocksAt t d) p hpb, hempty] at hstep
    simpa using hstep
  have hglcp : get_last_child_position (levelAt t (d + 1)).louds p =
      some (sumTake (sizesAt t d) p, sumTake (sizesAt t d) p) := by
    rw [show (levelAt t (d + 1)).louds = loudsOfSizes (sizesAt t d) from rfl,
      glcp_louds (sizesAt t d) p (by omega) (by omega), hsz]
  have hsearchAll : ∀ target : α,
      search_label_in_children (levelAt t (d + 1)).louds
        (levelAt t (d + 1)).labels target p =
      some (sumTake (sizesAt t d) p, false) := by
    intro target
    unfold search_label_in_children
    rw [hglcp]
    exact bsearch_loop_empty _ _ _ _ _
  refine ⟨hglcp, hsearchAll, ?_⟩
  intro pre rest c hpre hlenpre
  subst hlenpre
  unfold lookupList
  have hkeys : ∀ i, i < pre.length →
      pre[i]? = some ((fun i => (pre ++ c :: rest).getD i dflt) (0 + i)) := by
    intro i hi
    show pre[i]? = some ((pre ++ c :: rest).getD (0 + i) dflt)
    simp only [Nat.zero_add]
    rw [List.getElem?_eq_getElem hi,
      show (pre ++ c :: rest).getD i dflt =
        ((pre ++ c :: rest)[i]?).getD dflt by simp [List.getD],
      List.getElem?_append, if_pos hi, List.getElem?_eq_getElem hi]
    rfl
  have hreach := lookup_loop_spec t hwf
    (fun i => (pre ++ c :: rest).getD i dflt) pre 0 0
    (by omega) (by rw [numSlots_zero]; omega) hkeys
  simp only [Nat.zero_add] at hreach
  rw [← findPath_def, hpre] at hreach
  have hlv : (toView t)[pre.length + 1]? = some (levelAt t (pre.length + 1)) :=
    toView_getElem?_le t (pre.length + 1) (by omega)
  have hL : pre.length + 1 ≤ (pre ++ c :: rest).length := by
    simp only [List.length_append, List.length_cons]
    omega
  exact lookup_key_notfound_of_fail (toView t)
    (fun i => (pre ++ c :: rest).getD i dflt) pre.length
    (pre ++ c :: rest).length (sumTake (sizesAt t pre.length) p) p
    (levelAt t (pre.length + 1)) hreach hlv
    (hsearchAll ((fun i => (pre ++ c :: rest).getD i dflt) pre.length)) hL

theorem c9_witness :
    lookupList exTrie2 0 [2, 7] = some NOT_FOUND :=
  (c9_empty_children exTrie2 (by decide) 0 1 1 (by decide) (by decide)
    (by decide)).2.2 [2] [] 7 rfl rfl
